import Mathlib

/-!
# swan: the write path of an LSM time-series store

A shallow embedding of `src/write.go` and the properties of its codec, its
segment builder, its merge, its manifest, its write counters and its compaction
trigger.

Conventions of the embedding

* A Go `byte` is a `Fin 256`; a Go `string` or `[]byte` is a `List Byte`.
* Go `int` (taken to be 64 bits wide) and `int64` are `Int`; left shifts are wrapped
  into the 64-bit range by `wrapInt64`, sums and products of counts and offsets are
  not (they stay far inside the range for files of any real size).  `&`, `|` and `>>`
  are `Int.land`, `Int.lor` and `>>>`.
* An `io.Reader` is the list of bytes not yet consumed; `Read` into a zeroed
  buffer of length `n` fills a prefix of it and leaves the rest zero.
* An `io.Writer` is the list of bytes written so far; every `WriteTo` returns the
  bytes it appends.
* `md5.Sum`, `sort.Sort` and the iteration order of `range` over a map come from
  the Go runtime and are parameters (`Md5`, `GoSort`, `MapRange`).
-/

namespace Swan

/-! ## Constants (write.go 16-32) -/

abbrev Byte := Fin 256

def BufferedRecordsLimit : Int := 20
def LogFileRecordLimit : Int := BufferedRecordsLimit * 10
def LsmRecordLimitBase : Int := LogFileRecordLimit * 10
def KeyLength : Nat := 16
def IntLength : Nat := 4
def Int64Length : Nat := 8
def MBSize : Int := 1024 * 1024
def CopyBufferSize : Nat := 32 * 1024
def MaxLevel : Nat := 7
def WriteBufferSize : Nat := 4 * 1024

/-! ## Machine integers -/

/-- Two's-complement wrap of an integer into the signed 64-bit range. -/
def wrapInt64 (x : Int) : Int :=
  (x + 9223372036854775808) % 18446744073709551616 - 9223372036854775808

/-- The conversion `byte(x)`: the low eight bits of `x`. -/
def toByte (x : Int) : Byte := ⟨(x % 256).toNat, by omega⟩

/-- The conversion `int(b)` or `int64(b)` of a byte. -/
def ofByte (b : Byte) : Int := (b.val : Int)

/-- The index expression `b[i]` on a slice the callers always make long enough
(`b[:8]`, `b[8:16]`, `b[16:20]`, `b[20:]` of a 24-byte array, `make([]byte, IntLength)`,
`oldkeyb[x : x+IntLength]`). -/
def idx (b : List Byte) (i : Nat) : Byte := b.getD i 0

/-- The slice expression `b[lo:hi]`. -/
def slice (b : List Byte) (lo hi : Nat) : List Byte := (b.drop lo).take (hi - lo)

/-! ## Integer codec (write.go 174-215) -/

/-- One round `c |= int64(x); c <<= 8` of the loop of `bytesToint64` and `bytesToint`. -/
def decodeRound (c : Int) (x : Byte) : Int := wrapInt64 ((Int.lor c (ofByte x)) <<< (8 : Int))

/-- Source `bytesToint64`: `for i := 0; i < 8; i++ { c |= int64(b[i]); c <<= 8 }`. -/
def bytesToint64 (b : List Byte) : Int :=
  (List.range 8).foldl (fun c i => decodeRound c (idx b i)) 0

/-- Source `bytesToint`: `for i := 0; i < 4; i++ { c |= int(b[i]); c <<= 8 }`. -/
def bytesToint (b : List Byte) : Int :=
  (List.range 4).foldl (fun c i => decodeRound c (idx b i)) 0

/-- The loop of `int64ToBytes` and `intToBytes`: `n` rounds of
`b[i] = byte(x & c); x >>= 8` with `c = 1<<8 - 1`. -/
def encodeLoop : Nat → Int → List Byte
  | 0, _ => []
  | n + 1, x => toByte (Int.land x 255) :: encodeLoop n (x >>> (8 : Nat))

/-- Source `int64ToBytes`. -/
def int64ToBytes (x : Int) : List Byte := encodeLoop 8 x

/-- Source `intToBytes`. -/
def intToBytes (x : Int) : List Byte := encodeLoop 4 x

/-! ## Metric keys (write.go 167-170) -/

/-- The function `md5.Sum` of the Go standard library: any function to 16 bytes. -/
structure Md5 where
  Sum : List Byte → List Byte
  size : ∀ m, (Sum m).length = 16

/-- Source `metricKey.Hash`: `x := md5.Sum([]byte(m)); return x[:]`. -/
def metricKey.Hash (h : Md5) (m : List Byte) : List Byte := h.Sum m

/-- A concrete 16-byte digest used to instantiate `Md5` at concrete inputs: the
name cut or zero-padded to 16 bytes. -/
def padDigest : Md5 where
  Sum m := m.take 16 ++ List.replicate (16 - m.length) 0
  size m := by simp; omega

/-! ## Readers -/

/-- The bytes of a stream that have not been read yet. -/
abbrev Reader := List Byte

/-- The call `r.Read(b)` on a zeroed buffer `b` of length `n`: the buffer afterwards
and the rest of the stream. Fewer than `n` available bytes leave the tail of the
buffer zero; the error is dropped by every caller. -/
def Reader.Read (n : Nat) (r : Reader) : List Byte × Reader :=
  (r.take n ++ List.replicate (n - r.length) 0, r.drop n)

/-! ## Records (write.go 63-67, 217-242) -/

structure record where
  ts : Int
  name : List Byte
  value : List Byte
deriving DecidableEq

/-- The zero value of `record`, as made by `var r record`. -/
def record.zero : record := ⟨0, [], []⟩

/-- Source `record.WriteTo`: the four `w.Write` calls, in order. -/
def record.WriteTo (h : Md5) (r : record) : List Byte :=
  let bts := int64ToBytes r.ts
  let lv := intToBytes r.value.length
  bts ++ metricKey.Hash h r.name ++ lv ++ r.value

/-- Source `record.ReadFrom` on receiver `m`: `ts` and `name` are assigned, the value
bytes are read into a local buffer `bb` that is dropped, so `value` keeps what the
receiver held. -/
def record.ReadFrom (m : record) (r : Reader) : record × Reader :=
  let (b, r1) := Reader.Read 28 r
  let ts := bytesToint64 (slice b 0 8)
  let name := slice b 8 24
  let lv := bytesToint (slice b 24 28)
  let r2 := (Reader.Read lv.toNat r1).2
  ({ m with ts := ts, name := name }, r2)

/-! ## Manifest (write.go 79-100) -/

structure manifest where
  levels : Int
  compacting : Bool
deriving DecidableEq

/-- Source `manifest.WriteTo`: `if m.compacting { m.levels &= 1 }` on the value
receiver, then `w.Write(intToBytes(m.levels))`. -/
def manifest.WriteTo (m : manifest) : List Byte :=
  let levels := if m.compacting then Int.land m.levels 1 else m.levels
  intToBytes levels

/-- Source `manifest.ReadFrom` on receiver `m`. -/
def manifest.ReadFrom (m : manifest) (r : Reader) : manifest × Reader :=
  let (b, r1) := Reader.Read IntLength r
  let levels := bytesToint b
  let compacting := if Int.land levels 1 = 1 then true else m.compacting
  let levels := wrapInt64 ((levels >>> (1 : Nat)) <<< (1 : Int))
  (⟨levels, compacting⟩, r1)

/-! ## Go runtime services -/

/-- The function `strings.Compare`: byte-wise lexicographic three-way comparison. -/
def strings.Compare (a b : List Byte) : Int :=
  if a < b then -1 else if a = b then 0 else 1

/-- The function `sort.Sort` of the Go standard library, seen through `Less`. When
`Less` is a strict weak order, the result is a rearrangement of the input in which
no element is `Less` than one before it. Nothing is assumed about stability. -/
structure GoSort where
  sort : {α : Type} → (α → α → Bool) → List α → List α
  perm : ∀ {α : Type} (less : α → α → Bool) (l : List α), (sort less l).Perm l
  sorted : ∀ {α : Type} (less : α → α → Bool) (l : List α),
    (∀ x y, less x y = true → less y x = false) →
    (∀ x y z, less x y = false → less y z = false → less x z = false) →
    (sort less l).Pairwise (fun x y => less y x = false)

/-- The order in which `for k := range m` visits the keys of a map: any
rearrangement of them. -/
structure MapRange where
  order : {α : Type} → List α → List α
  perm : ∀ {α : Type} (l : List α), (order l).Perm l

/-- A Go map, as the list of its entries in order of first insertion. -/
abbrev GoMap (κ ν : Type) := List (κ × ν)

/-- The lookup `v, ok := m[k]`. -/
def GoMap.get {κ ν : Type} [DecidableEq κ] : GoMap κ ν → κ → Option ν
  | [], _ => none
  | (k1, v1) :: m, k => if k1 = k then some v1 else GoMap.get m k

/-- The assignment `m[k] = v`. -/
def GoMap.set {κ ν : Type} [DecidableEq κ] : GoMap κ ν → κ → ν → GoMap κ ν
  | [], k, v => [(k, v)]
  | (k1, v1) :: m, k, v => if k1 = k then (k, v) :: m else (k1, v1) :: GoMap.set m k v

/-- The keys of a map. -/
def GoMap.keys {κ ν : Type} (m : GoMap κ ν) : List κ := m.map Prod.fst

/-- An instance of `GoSort` for concrete inputs: insertion sort. -/
def insertionGoSort : GoSort where
  sort less l := l.insertionSort (fun x y => less y x = false)
  perm less l := List.perm_insertionSort _ l
  sorted less l hasym htrans := by
    haveI : IsTotal _ (fun x y => less y x = false) := ⟨fun x y => by
      cases hxy : less y x
      · exact Or.inl rfl
      · exact Or.inr (hasym y x hxy)⟩
    haveI : IsTrans _ (fun x y => less y x = false) := ⟨fun x y z hxy hyz => htrans z y x hyz hxy⟩
    exact List.sorted_insertionSort _ l

/-- An instance of `MapRange` for concrete inputs: insertion order. -/
def insertionOrderRange : MapRange where
  order l := l
  perm l := List.Perm.refl l

/-! ## Segment header (write.go 56-60, 137-155) -/

structure lsmMetaInfo where
  start : Int
  «end» : Int
  totalRecords : Int
  keycount : Int
deriving DecidableEq

/-- Source `lsmMetaInfo.ReadFrom`. -/
def lsmMetaInfo.ReadFrom (r : Reader) : lsmMetaInfo × Reader :=
  let (b, r1) := Reader.Read 24 r
  (⟨bytesToint64 (slice b 0 8), bytesToint64 (slice b 8 16),
    bytesToint (slice b 16 20), bytesToint (slice b 20 24)⟩, r1)

/-- Source `lsmMetaInfo.WriteTo`: the four `w.Write` calls, in order. -/
def lsmMetaInfo.WriteTo (m : lsmMetaInfo) : List Byte :=
  int64ToBytes m.start ++ int64ToBytes m.end ++ intToBytes m.totalRecords ++ intToBytes m.keycount

/-! ## Building a level-0 segment (write.go 115-135, 468-519) -/

/-- Source `records.Less`, on the two elements compared. -/
def records.Less (x y : record) : Bool := decide (x.ts < y.ts)

/-- The expression `p[i][0].name`. Inside `sortLogFileRecords` every group comes out
of the map with at least one record in it. -/
def firstName (g : List record) : List Byte :=
  match g with
  | [] => []
  | r :: _ => r.name

/-- Source `preSortedRecords.Less`, on the two elements compared. -/
def preSortedRecords.Less (p q : List record) : Bool :=
  strings.Compare (firstName p) (firstName q) == -1

/-- The grouping loop of `sortLogFileRecords`:
`m[rds[i].name] = append(m[rds[i].name], rds[i])`. -/
def groupByName (rds : List record) : GoMap (List Byte) (List record) :=
  rds.foldl (fun m r => GoMap.set m r.name ((GoMap.get m r.name).getD [] ++ [r])) []

/-- Source `sortLogFileRecords`. -/
def sortLogFileRecords (S : GoSort) (R : MapRange) (rds : List record) : List (List record) :=
  let m := groupByName rds
  let mm := (R.order (GoMap.keys m)).map (fun k => S.sort records.Less ((GoMap.get m k).getD []))
  S.sort preSortedRecords.Less mm

/-- What a function that writes to an `io.Writer` leaves behind: the bytes written,
and whether it returned (`ok`) or stopped in a run-time panic. -/
structure Outcome where
  out : List Byte
  ok : Bool
deriving DecidableEq

/-- The loop `for i := range recrodsToaadd { wr.Write([]byte(recrodsToaadd[i][0].name)) }`
from writer contents `w`; indexing an empty group panics. -/
def writeKeys : List (List record) → List Byte → Outcome
  | [], w => ⟨w, true⟩
  | [] :: _, w => ⟨w, false⟩
  | (r :: _) :: rest, w => writeKeys rest (w ++ r.name)

/-- The loop `for i := range recrodsToaadd { wr.Write(intToBytes(len(recrodsToaadd[i]))) }`. -/
def writeCounts (rs : List (List record)) (w : List Byte) : List Byte :=
  rs.foldl (fun w g => w ++ intToBytes g.length) w

/-- The loop that writes `int64ToBytes(recrodsToaadd[i][ii].ts)`. -/
def writeTimestamps (rs : List (List record)) (w : List Byte) : List Byte :=
  rs.foldl (fun w g => g.foldl (fun w r => w ++ int64ToBytes r.ts) w) w

/-- The loop that writes `intToBytes(len(recrodsToaadd[i][ii].value))`. -/
def writeValueLengths (rs : List (List record)) (w : List Byte) : List Byte :=
  rs.foldl (fun w g => g.foldl (fun w r => w ++ intToBytes r.value.length) w) w

/-- The loop that writes `[]byte(recrodsToaadd[i][ii].value)`. -/
def writeValues (rs : List (List record)) (w : List Byte) : List Byte :=
  rs.foldl (fun w g => g.foldl (fun w r => w ++ r.value) w) w

/-- Source `writeLogFileInLsmFormat`, on an empty writer. `recrodsToaadd[0][0]` and
`recrodsToaadd[len-1][len(l)-1]` are read before anything is written. -/
def writeLogFileInLsmFormat (recrodsToaadd : List (List record)) (length : Int) : Outcome :=
  match recrodsToaadd.head? >>= List.head?, recrodsToaadd.getLast? >>= List.getLast? with
  | some first, some last =>
    let header : lsmMetaInfo := ⟨first.ts, last.ts, length, recrodsToaadd.length⟩
    let w := header.WriteTo
    match writeKeys recrodsToaadd w with
    | ⟨w, false⟩ => ⟨w, false⟩
    | ⟨w, true⟩ =>
      let w := writeCounts recrodsToaadd w
      let w := writeTimestamps recrodsToaadd w
      let w := writeValueLengths recrodsToaadd w
      ⟨writeValues recrodsToaadd w, true⟩
  | _, _ => ⟨[], false⟩

/-! ## The sections of a segment, as the format lists them -/

/-- The key array: the key of every group, in group order. -/
def keysSection (rs : List (List record)) : List Byte := (rs.map firstName).flatten

/-- The per-group record counts, 4 bytes each. -/
def countsSection (rs : List (List record)) : List Byte :=
  (rs.map (fun g => intToBytes g.length)).flatten

/-- The timestamp block of one group: its timestamps in order, 8 bytes each. -/
def timestampBlock (g : List record) : List Byte :=
  ((g.map (fun r => r.ts)).map int64ToBytes).flatten

/-- The timestamp blocks of all groups, in group order. -/
def timestampsSection (rs : List (List record)) : List Byte := (rs.map timestampBlock).flatten

/-- The value lengths of all groups, in group order, 4 bytes each. -/
def valueLengthsSection (rs : List (List record)) : List Byte :=
  (rs.map (fun g => (g.map (fun r => intToBytes r.value.length)).flatten)).flatten

/-- The raw value bytes of all groups, in group order. -/
def valuesSection (rs : List (List record)) : List Byte :=
  (rs.map (fun g => (g.map (fun r => r.value)).flatten)).flatten

/-- The records of `rds` named `k`, in arrival order. -/
def recordsNamed (k : List Byte) (rds : List record) : List record :=
  rds.filter (fun r => decide (r.name = k))

/-- The group that `sortLogFileRecords` makes for the key `k`. -/
def sortedGroup (S : GoSort) (rds : List record) (k : List Byte) : List record :=
  S.sort records.Less (recordsNamed k rds)

/-- The batch on which the header time range is wrong: key `a` at time 5, key `b` at
time 1. -/
def skewedBatch : List record := [⟨5, [97], []⟩, ⟨1, [98], []⟩]

/-- The byte `k` repeated to a 16-byte key. -/
def key16 (k : Byte) : List Byte := List.replicate 16 k

/-! ## Files -/

/-- A file that is read through a cursor: its contents and the cursor. -/
structure File where
  data : List Byte
  pos : Nat
deriving DecidableEq

/-- The bytes from the cursor on. -/
def File.rest (f : File) : List Byte := f.data.drop f.pos

/-- The cursor moved over `n` bytes, or to the end of the file. -/
def File.advance (f : File) (n : Nat) : File :=
  { f with pos := f.pos + min n f.rest.length }

/-- The call `f.Seek(offset, whence)` of `io.Seeker`: the offset returned and the file
afterwards. `whence` 0, 1, 2 is relative to the start, the cursor, the end; any other
`whence`, or a negative target, is an error that returns 0 and leaves the cursor. -/
def File.Seek (f : File) (offset whence : Int) : Int × File :=
  let target : Option Int :=
    if whence = 0 then some offset
    else if whence = 1 then some (f.pos + offset)
    else if whence = 2 then some (f.data.length + offset)
    else none
  match target with
  | some p => if 0 ≤ p then (p, { f with pos := p.toNat }) else (0, f)
  | none => (0, f)

/-- The call `f.Read(b)` on a zeroed buffer of length `n`. -/
def File.Read (f : File) (n : Nat) : List Byte × File :=
  ((Reader.Read n f.rest).1, f.advance n)

/-- The call `io.CopyBuffer(wr, io.LimitReader(f, n), buf)`: the bytes handed to the
writer, at most `n` of them, and the file afterwards. -/
def File.copyLimited (f : File) (n : Int) : List Byte × File :=
  (f.rest.take n.toNat, f.advance n.toNat)

/-! ## Merging two segments (write.go 306-465) -/

structure key where
  key : List Byte
  old : Int
  new : Int
  orecords : Int
  nrecords : Int
  osum : Int
  nsum : Int
deriving DecidableEq

/-- Source `keys.Less`, on the two elements compared. -/
def keys.Less (x y : key) : Bool := strings.Compare x.key y.key == -1

/-- The first key loop of `mergeLSMFiles` (lines 334-340): every key of `old` is entered
as `{-1, i, c, 0}`. -/
def oldKeyMap (oldkeyb : List Byte) (keycount : Int) : GoMap (List Byte) (Int × Int × Int × Int) :=
  let olastKeyAddr := KeyLength * keycount.toNat
  (List.range keycount.toNat).foldl (fun m i =>
    let start := i * KeyLength
    let k := slice oldkeyb start (start + KeyLength)
    let x := olastKeyAddr + i * IntLength
    let c := bytesToint (slice oldkeyb x (x + IntLength))
    GoMap.set m k (-1, (i : Int), c, 0)) []

/-- The second key loop of `mergeLSMFiles` (lines 345-359): a key of `new` updates the
entry of `old` or makes the entry `{i, -1, 0, c}`. -/
def newKeyMap (m : GoMap (List Byte) (Int × Int × Int × Int)) (newkeyb : List Byte)
    (keycount : Int) : GoMap (List Byte) (Int × Int × Int × Int) :=
  let nlastKeyAddr := KeyLength * keycount.toNat
  (List.range keycount.toNat).foldl (fun m i =>
    let start := i * KeyLength
    let k := slice newkeyb start (start + KeyLength)
    let x := nlastKeyAddr + i * IntLength
    let c := bytesToint (slice newkeyb x (x + IntLength))
    let v : Int × Int × Int × Int :=
      match GoMap.get m k with
      | some v => ((i : Int), v.2.1, v.2.2.1, c)
      | none => ((i : Int), -1, 0, c)
    GoMap.set m k v) m

/-- Lines 360-365: `ks = make(keys, 0, len(m))` has length 0, so the assignment
`ks[i] = key{...}` of the first key visited is out of range and panics; an empty map
leaves `ks` empty. -/
def fillKeys (R : MapRange) (m : GoMap (List Byte) (Int × Int × Int × Int)) : Option (List key) :=
  match R.order (GoMap.keys m) with
  | [] => some []
  | _ :: _ => none

/-- The two cursors and the writer during the copy loops of `mergeLSMFiles`. -/
structure MergeState where
  old : File
  new : File
  w : List Byte

/-- The pair `old.Seek(io.SeekStart, whence)`, `io.CopyBuffer(wr, io.LimitReader(old, n), ..)`.
The source passes `io.SeekStart` (0) as the offset and the computed index as `whence`. -/
def MergeState.copyOld (s : MergeState) (whence n : Int) : MergeState :=
  let old := (s.old.Seek 0 whence).2
  let (p, old) := old.copyLimited n
  { s with old := old, w := s.w ++ p }

/-- The pair `new.Seek(io.SeekStart, whence)`, `io.CopyBuffer(wr, io.LimitReader(new, n), ..)`. -/
def MergeState.copyNew (s : MergeState) (whence n : Int) : MergeState :=
  let new := (s.new.Seek 0 whence).2
  let (p, new) := new.copyLimited n
  { s with new := new, w := s.w ++ p }

/-- The calls `b.Read(buf)` with `len(buf) = IntLength`, `n` times; `b` is the file the
source also calls `old` (`bIsOld`) or `new`. The sums `v.osum`, `v.nsum` they feed are
fields of the loop variable, a copy, and are lost. -/
def MergeState.readB (s : MergeState) (bIsOld : Bool) (n : Int) : MergeState :=
  (List.range n.toNat).foldl (fun s _ =>
    if bIsOld then { s with old := (s.old.Read IntLength).2 }
    else { s with new := (s.new.Read IntLength).2 }) s

/-- Lines 328-329 and 366-449 of `mergeLSMFiles`: the header and the five sections are
written for the keys `ks`; `old` and `new` have their cursors behind the key arrays,
`keycount` is `len(m)`. The buffer `bf` only receives copies and is left out. -/
def mergeWrite (S : GoSort) (old new : File) (oldHeader newHeader : lsmMetaInfo) (bIsOld : Bool)
    (keycount : Nat) (ks : List key) : Outcome :=
  let ks := S.sort keys.Less ks
  let destHeader : lsmMetaInfo :=
    ⟨oldHeader.start, newHeader.end, newHeader.totalRecords + oldHeader.totalRecords, keycount⟩
  let w := destHeader.WriteTo
  let w := ks.foldl (fun w v => w ++ v.key) w
  let w := ks.foldl (fun w v => w ++ intToBytes (v.orecords + v.nrecords)) w
  let oseekIndex : Int :=
    2 * (IntLength + Int64Length) + (KeyLength + IntLength) * oldHeader.keycount
  let nseekIndex : Int :=
    2 * (IntLength + Int64Length) + (KeyLength + IntLength) * newHeader.keycount
  let s : MergeState := ⟨old, new, w⟩
  let s := ks.foldl (fun s v =>
    let s := if v.old > -1 then
      s.copyOld (oseekIndex + v.old * Int64Length) (v.orecords * Int64Length) else s
    if v.new > -1 then
      s.copyNew (nseekIndex + v.new * Int64Length) (v.nrecords * Int64Length) else s) s
  let oseekIndex := oseekIndex + oldHeader.totalRecords * Int64Length
  let nseekIndex := nseekIndex + newHeader.totalRecords * Int64Length
  let s := ks.foldl (fun s v =>
    let s := if v.old > -1 then
      s.copyOld (oseekIndex + v.old * IntLength) (v.orecords * IntLength) else s
    let s := if v.new > -1 then
      s.copyNew (nseekIndex + v.new * IntLength) (v.nrecords * IntLength) else s
    (s.readB bIsOld v.orecords).readB bIsOld v.nrecords) s
  let oseekIndex := oseekIndex + oldHeader.totalRecords * IntLength
  let nseekIndex := nseekIndex + newHeader.totalRecords * IntLength
  let s := ks.foldl (fun s v =>
    let s := if v.old > -1 then s.copyOld (oseekIndex + v.old * Int64Length) v.osum else s
    if v.new > -1 then s.copyNew (nseekIndex + v.new * Int64Length) v.nsum else s) s
  ⟨s.w, true⟩

/-- Lines 328-449 of `mergeLSMFiles`, once `old`, `new` and their headers are chosen;
both cursors are behind the headers, `bIsOld` says that the parameter `b` is `old`. -/
def mergeFrom (S : GoSort) (R : MapRange) (old new : File) (oldHeader newHeader : lsmMetaInfo)
    (bIsOld : Bool) : Outcome :=
  let ro := old.Read ((KeyLength + IntLength) * oldHeader.keycount.toNat)
  let m := oldKeyMap ro.1 oldHeader.keycount
  let rn := new.Read ((KeyLength + IntLength) * newHeader.keycount.toNat)
  let m := newKeyMap m rn.1 newHeader.keycount
  match fillKeys R m with
  | none => ⟨[], false⟩
  | some ks => mergeWrite S ro.2 rn.2 oldHeader newHeader bIsOld m.length ks

/-- Source `mergeLSMFiles`: both files are rewound, both headers are read, and
`if aH.end < bH.end { new = a; old = b } else { new = b; old = a }`. Memory is taken
to be unbounded: the two `make([]byte, ..)` of the key arrays always succeed. -/
def mergeLSMFiles (S : GoSort) (R : MapRange) (a b : File) : Outcome :=
  let a := (a.Seek 0 0).2
  let b := (b.Seek 0 0).2
  let aH := (lsmMetaInfo.ReadFrom a.rest).1
  let a := a.advance 24
  let bH := (lsmMetaInfo.ReadFrom b.rest).1
  let b := b.advance 24
  if aH.end < bH.end then mergeFrom S R b a bH aH true else mergeFrom S R a b aH bH false

/-- The segment `old` of the merge example: keys `A` with timestamps 1, 2 and `B` with
timestamp 5, as `writeLogFileInLsmFormat` builds it. -/
def oldSegment : List Byte :=
  (writeLogFileInLsmFormat
    [[⟨1, key16 65, [1]⟩, ⟨2, key16 65, [2]⟩], [⟨5, key16 66, [3]⟩]] 3).out

/-- The segment `new` of the merge example: keys `A` with timestamp 10 and `C` with
timestamp 7. -/
def newSegment : List Byte :=
  (writeLogFileInLsmFormat [[⟨10, key16 65, [4]⟩], [⟨7, key16 67, [5]⟩]] 2).out

/-! ## Manifest levels (write.go 102-113) -/

/-- The expression `1 << level`. A negative shift count is a run-time panic and no caller
passes one, so the level is a natural number. -/
def levelBit (level : Nat) : Int := wrapInt64 ((1 : Int) <<< (level : Int))

/-- Source `manifest.levelExists`: `x := 1 << level; return m.levels&x == x`. -/
def manifest.levelExists (m : manifest) (level : Nat) : Bool :=
  Int.land m.levels (levelBit level) == levelBit level

/-- Source `manifest.setLevel`: `m.levels |= 1 << level`. -/
def manifest.setLevel (m : manifest) (level : Nat) : manifest :=
  { m with levels := Int.lor m.levels (levelBit level) }

/-- Source `manifest.unsetLevel`: `x := 1 << level; m.levels &= ^x`. -/
def manifest.unsetLevel (m : manifest) (level : Nat) : manifest :=
  { m with levels := Int.land m.levels (Int.lnot (levelBit level)) }

/-! ## The write path of the engine (write.go 69-76, 247-287) -/

/-- The calls that `db.write` makes on the log and on the segment builder. -/
inductive Event where
  | logWrite (r : record)
  | logFlush
  | writeToLSM (level : Int)
deriving DecidableEq

/-- The fields of `db` that the write and compaction paths read or change, and the calls
made so far: `logWrite r` is `r.WriteTo(&db.logWriter)`, `logFlush` is
`db.logWriter.Flush()`, `writeToLSM l` is `db.writeToLSM(l)`. The two counters are
integers without wrap-around: a 64-bit `int` holds them for the first `2^63` calls. -/
structure db where
  lsmFiles : List File
  loggedBufferedRecords : Int
  logFileRecords : Int
  manifest : manifest
  trace : List Event

/-- Source `db.write`; `now` is `time.Now().Unix()`. The call `db.writeToLSM(0)` changes
no field of `db`; what it does is `db.writeToLSM`. -/
def db.write (d : db) (now : Int) (name value : List Byte) : db :=
  let r : record := ⟨now, name, value⟩
  let trace := d.trace ++ [Event.logWrite r]
  let buffered := d.loggedBufferedRecords + 1
  if buffered = BufferedRecordsLimit then
    let trace := trace ++ [Event.logFlush]
    let logFileRecords := d.logFileRecords + BufferedRecordsLimit
    if logFileRecords = LogFileRecordLimit then
      { d with trace := trace ++ [Event.writeToLSM 0], loggedBufferedRecords := 0,
               logFileRecords := logFileRecords }
    else
      { d with trace := trace, loggedBufferedRecords := 0, logFileRecords := logFileRecords }
  else
    { d with trace := trace, loggedBufferedRecords := buffered }

/-- One call of `db.write`: the time, the name and the value. -/
abbrev WriteCall := Int × List Byte × List Byte

/-- A sequence of calls of `db.write`, in order. -/
def db.writes (d : db) (calls : List WriteCall) : db :=
  calls.foldl (fun d c => d.write c.1 c.2.1 c.2.2) d

/-- The number of explicit flushes of the log buffer made so far. -/
def db.flushes (d : db) : Nat := d.trace.count Event.logFlush

/-- The number of calls `db.writeToLSM(0)` made so far. -/
def db.lsmBuilds (d : db) : Nat := d.trace.count (Event.writeToLSM 0)

/-- A `bufio.Reader`: the bytes in its buffer that were not handed out yet, and the bytes
of the underlying file that were not read yet. -/
structure BufReader where
  buf : List Byte
  src : List Byte

/-- The size of the buffer of `bufio.NewReader`. -/
def defaultBufSize : Nat := 4096

/-- The call `bufio.NewReader(f)`: nothing is buffered yet. -/
def bufio.NewReader (src : List Byte) : BufReader := ⟨[], src⟩

/-- The call `b.Buffered()`: the number of bytes that can be read from the buffer. -/
def BufReader.Buffered (b : BufReader) : Nat := b.buf.length

/-- The call `b.Read(p)` on a zeroed `p` of length `n`: bytes come from the buffer when it
holds any; an empty buffer is first filled by one read of the file, and a `p` at least as
long as the buffer is read into directly. -/
def BufReader.Read (b : BufReader) (n : Nat) : List Byte × BufReader :=
  if n = 0 then ([], b)
  else if b.buf = [] then
    if defaultBufSize ≤ n then
      ((Reader.Read n b.src).1, ⟨[], b.src.drop n⟩)
    else
      let filled := b.src.take defaultBufSize
      ((Reader.Read n filled).1, ⟨filled.drop n, b.src.drop defaultBufSize⟩)
  else
    ((Reader.Read n b.buf).1, ⟨b.buf.drop n, b.src⟩)

/-- Source `record.ReadFrom`, called on a `*bufio.Reader` as in `db.writeToLSM`. -/
def record.ReadFromBuf (m : record) (b : BufReader) : record × BufReader :=
  let r1 := b.Read 28
  let lv := bytesToint (slice r1.1 24 28)
  let r2 := r1.2.Read lv.toNat
  ({ m with ts := bytesToint64 (slice r1.1 0 8), name := slice r1.1 8 24 }, r2.2)

/-- The loop `for breader.Buffered() != 0 { var r record; r.ReadFrom(breader);
logRecords = append(logRecords, r) }` of `db.writeToLSM`. Every round takes at least one
byte out of the buffer, so one more round than there are bytes is enough fuel. -/
def readLogRecords : Nat → BufReader → List record → List record
  | 0, _, logRecords => logRecords
  | fuel + 1, breader, logRecords =>
    if breader.Buffered ≠ 0 then
      let rr := record.ReadFromBuf record.zero breader
      readLogRecords fuel rr.2 (logRecords ++ [rr.1])
    else logRecords

/-- Source `db.writeToLSM`, on the contents of `db.logFile`: what is written to the
buffered writer of the new file. The parameter `level` is not used by the source. -/
def db.writeToLSM (S : GoSort) (R : MapRange) (logFile : List Byte) (_level : Int) : Outcome :=
  let breader := bufio.NewReader logFile
  let logRecords := readLogRecords (logFile.length + 1) breader []
  writeLogFileInLsmFormat (sortLogFileRecords S R logRecords) logRecords.length

/-! ## Compaction (write.go 289-305, 521-534) -/

/-- The constant `io.SeekStart`. -/
def SeekStart : Int := 0

/-- The constant `io.SeekEnd`. -/
def SeekEnd : Int := 2

/-- Source `needCompactation`: the result and the file afterwards. The source passes the
`io.Seek*` constant as the offset and 0 as `whence`. `int64(math.Pow10(level))` is
`10^level`, exact for the levels 0..18. -/
def needCompactation (seeker : File) (level : Nat) : Bool × File :=
  let r1 := seeker.Seek SeekStart 0
  let r2 := r1.2.Seek SeekEnd 0
  let size := r2.1 - r1.1 + 1
  (decide (size > (10 : Int) ^ level * MBSize), r2.2)

/-- The call `createNewFile()`: a new, empty file. -/
def createNewFile : File := ⟨[], 0⟩

/-- Lines 301-302 of `db.compact`: `db.manifest.setLevel(level + 1)` and then
`db.manifest.unsetLevel(level)`. -/
def manifest.afterCompaction (m : manifest) (level : Nat) : manifest :=
  (m.setLevel (level + 1)).unsetLevel level

/-- The body of the loop of `db.compact` (lines 292-302) for one level: the engine
afterwards, and whether the body returned (`false`: an index out of range or a panic of
the merge). The cursors that the merge leaves in its two inputs are not kept. -/
def db.compactLevel (S : GoSort) (R : MapRange) (d : db) (level : Nat) : db × Bool :=
  if d.lsmFiles.length ≤ level + 1 then (d, false)
  else
    let lsmFiles :=
      if d.manifest.levelExists (level + 1) then d.lsmFiles
      else d.lsmFiles.set (level + 1) createNewFile
    let merged := mergeLSMFiles S R (lsmFiles.getD level createNewFile)
      (lsmFiles.getD (level + 1) createNewFile)
    if merged.ok then
      ({ d with lsmFiles := lsmFiles.set (level + 1) ⟨merged.out, merged.out.length⟩,
                manifest := d.manifest.afterCompaction level }, true)
    else ({ d with lsmFiles := lsmFiles }, false)

/-- The loop of `db.compact` from `level` on:
`for ; level < MaxLevel && needCompactation(db.lsmFiles[level].file, level); level++`.
The level grows in every round, so `MaxLevel` rounds are enough fuel. -/
def db.compactFrom (S : GoSort) (R : MapRange) : Nat → Nat → db → db × Bool
  | 0, _, d => (d, true)
  | fuel + 1, level, d =>
    if level < MaxLevel then
      match d.lsmFiles.get? level with
      | none => (d, false)
      | some f =>
        let nc := needCompactation f level
        let d := { d with lsmFiles := d.lsmFiles.set level nc.2 }
        if nc.1 then
          match db.compactLevel S R d level with
          | (d, true) => db.compactFrom S R fuel (level + 1) d
          | (d, false) => (d, false)
        else (d, true)
    else (d, true)

/-- Source `db.compact`. -/
def db.compact (S : GoSort) (R : MapRange) (d : db) : db × Bool :=
  db.compactFrom S R MaxLevel 0 d

/-! ## Inputs of the examples -/

/-- A header-only file whose header decodes to start 256, end 768 and no keys. -/
def headerOnlyA : List Byte :=
  [0, 0, 0, 0, 0, 0, 0, 1, 0, 0, 0, 0, 0, 0, 0, 3, 0, 0, 0, 0, 0, 0, 0, 0]

/-- A header-only file whose header decodes to start 512, end 1024 and no keys. -/
def headerOnlyB : List Byte :=
  [0, 0, 0, 0, 0, 0, 0, 2, 0, 0, 0, 0, 0, 0, 0, 4, 0, 0, 0, 0, 0, 0, 0, 0]

/-- The engine before the first write: no files, zeroed counters, nothing called yet. -/
def freshDb : db := ⟨[], 0, 0, ⟨0, false⟩, []⟩

/-- A call `write("a", "1")` at time 0. -/
def sampleCall : WriteCall := (0, [97], [49])

/-! ## Integer codec -/

theorem ldiff_255 (m : Nat) : Nat.ldiff 255 m = 255 - m % 256 := by
  apply Nat.eq_of_testBit_eq
  intro i
  have h1 : (255 : Nat) = 2 ^ 8 - 1 := by norm_num
  have h2 : 255 - m % 256 = 2 ^ 8 - (m % 2 ^ 8 + 1) := by omega
  rw [Nat.testBit_ldiff, h2, Nat.testBit_two_pow_sub_succ (Nat.mod_lt _ (by norm_num)), h1,
    Nat.testBit_two_pow_sub_one, Nat.testBit_mod_two_pow]
  by_cases h : i < 8 <;> simp [h]

/-- Masking with `1<<8 - 1` keeps the low byte, for negative integers too. -/
theorem land_255 (x : Int) : Int.land x 255 = x % 256 := by
  cases x with
  | ofNat m =>
    show ((m &&& 255 : Nat) : Int) = (m : Int) % 256
    have := Nat.and_pow_two_sub_one_eq_mod m 8
    norm_num at this
    rw [this]; norm_cast
  | negSucc m =>
    show ((Nat.ldiff 255 m : Nat) : Int) = Int.negSucc m % 256
    rw [ldiff_255, Int.negSucc_eq]
    omega

theorem ofByte_toByte (y : Int) : ofByte (toByte y) = y % 256 := by
  unfold ofByte toByte
  simp only
  omega

theorem encodeLoop_length (n : Nat) (x : Int) : (encodeLoop n x).length = n := by
  induction n generalizing x with
  | zero => rfl
  | succ n ih => simp [encodeLoop, ih]

theorem encodeLoop_idx_shift (n : Nat) (x : Int) (i : Nat) (hi : i < n) :
    ofByte (idx (encodeLoop n x) i) = (x >>> (8 * i)) % 256 := by
  induction n generalizing x i with
  | zero => omega
  | succ n ih =>
    cases i with
    | zero =>
      rw [Int.shiftRight_eq_div_pow]
      simp [encodeLoop, idx, ofByte_toByte, land_255]
    | succ i =>
      have := ih (x >>> (8 : Nat)) i (by omega)
      simp only [idx, encodeLoop, List.getD_cons_succ] at this ⊢
      rw [this, ← Int.shiftRight_add]
      congr 2
      omega

theorem encodeLoop_idx (n : Nat) (x : Int) (i : Nat) (hi : i < n) :
    ofByte (idx (encodeLoop n x) i) = x / 256 ^ i % 256 := by
  rw [encodeLoop_idx_shift n x i hi, Int.shiftRight_eq_div_pow, pow_mul]
  norm_num

theorem intToBytes_idx (x : Int) (i : Nat) (hi : i < 4) :
    ofByte (idx (intToBytes x) i) = x / 256 ^ i % 256 := encodeLoop_idx 4 x i hi

theorem int64ToBytes_idx (x : Int) (i : Nat) (hi : i < 8) :
    ofByte (idx (int64ToBytes x) i) = x / 256 ^ i % 256 := encodeLoop_idx 8 x i hi

theorem intToBytes_length (x : Int) : (intToBytes x).length = 4 := encodeLoop_length 4 x

theorem int64ToBytes_length (x : Int) : (int64ToBytes x).length = 8 := encodeLoop_length 8 x

theorem emod_mul_split (x a b : Int) (ha : 0 < a) (hb : 0 < b) :
    x % (a * b) = x % a + x / a % b * a := by
  have h1 := Int.emod_add_ediv x a
  have h2 := Int.emod_add_ediv (x / a) b
  have hr0 := Int.emod_nonneg x (ne_of_gt ha)
  have hr1 := Int.emod_lt_of_pos x ha
  have hs0 := Int.emod_nonneg (x / a) (ne_of_gt hb)
  have hs1 := Int.emod_lt_of_pos (x / a) hb
  have hx : x = (x % a + x / a % b * a) + (x / a / b) * (a * b) := by
    calc x = x % a + a * (x / a) := h1.symm
      _ = x % a + a * (x / a % b + b * (x / a / b)) := by rw [h2]
      _ = _ := by ring
  have hlt : x % a + x / a % b * a < a * b := by nlinarith
  have hnn : 0 ≤ x % a + x / a % b * a := by positivity
  conv_lhs => rw [hx]
  rw [Int.add_mul_emod_self, Int.emod_eq_of_lt hnn hlt]

theorem digit_sum (x : Int) (f : Nat → Int) (n : Nat) (hf : ∀ i, i < n → f i = x / 256 ^ i % 256) :
    ((List.range n).map (fun i => f i * 256 ^ i)).sum = x % 256 ^ n := by
  induction n with
  | zero => simp
  | succ n ih =>
    rw [List.range_succ, List.map_append, List.sum_append, ih (fun i hi => hf i (by omega)),
      pow_succ, emod_mul_split x _ _ (by positivity) (by norm_num)]
    simp [hf n (by omega)]

/-- C10. `intToBytes` writes exactly 4 bytes and `int64ToBytes` exactly 8, least
significant byte first: byte `i` is `floor(x / 256^i) mod 256`; for `0 <= x < 2^32`
the four bytes add up to `x`, and for a signed 64-bit `t` the eight bytes are those of
`t mod 2^64`, its two's-complement image. -/
theorem encoders_little_endian (x t : Int) (hx : 0 ≤ x ∧ x < 2 ^ 32)
    (ht : -2 ^ 63 ≤ t ∧ t < 2 ^ 63) :
    ((intToBytes x).length = 4
      ∧ (∀ i, i < 4 → ofByte (idx (intToBytes x) i) = x / 256 ^ i % 256)
      ∧ ((List.range 4).map (fun i => ofByte (idx (intToBytes x) i) * 256 ^ i)).sum = x)
    ∧ ((int64ToBytes t).length = 8
      ∧ (∀ i, i < 8 → ofByte (idx (int64ToBytes t) i) = t % 2 ^ 64 / 256 ^ i % 256)
      ∧ ((List.range 8).map (fun i => ofByte (idx (int64ToBytes t) i) * 256 ^ i)).sum
          = if 0 ≤ t then t else t + 2 ^ 64) := by
  have e4 := intToBytes_idx x
  have e8 := int64ToBytes_idx t
  refine ⟨⟨intToBytes_length x, fun i hi => e4 i hi, ?_⟩, int64ToBytes_length t, fun i hi => ?_, ?_⟩
  · rw [digit_sum x _ 4 e4]
    norm_num at hx ⊢
    omega
  · rw [e8 i hi]
    interval_cases i <;> norm_num <;> omega
  · rw [digit_sum t _ 8 e8]
    norm_num at ht ⊢
    by_cases h : 0 ≤ t
    · rw [if_pos h]; omega
    · rw [if_neg h]; omega

/-- C10 at `x = 258` and `t = -2`. -/
theorem encoders_little_endian_witness :
    ((intToBytes 258).length = 4
      ∧ (∀ i, i < 4 → ofByte (idx (intToBytes 258) i) = 258 / 256 ^ i % 256)
      ∧ ((List.range 4).map (fun i => ofByte (idx (intToBytes 258) i) * 256 ^ i)).sum = 258)
    ∧ ((int64ToBytes (-2)).length = 8
      ∧ (∀ i, i < 8 → ofByte (idx (int64ToBytes (-2)) i) = -2 % 2 ^ 64 / 256 ^ i % 256)
      ∧ ((List.range 8).map (fun i => ofByte (idx (int64ToBytes (-2)) i) * 256 ^ i)).sum
          = if (0 : Int) ≤ -2 then -2 else -2 + 2 ^ 64) :=
  encoders_little_endian 258 (-2) (by norm_num) (by norm_num)

/-- C9. The decoders do not invert the encoders: they take the first byte as the most
significant one and shift once more after the last byte. `intToBytes(1)` is `[1,0,0,0]`
and decodes to `2^32`; `int64ToBytes(1)` decodes to `0`, the set bit being shifted out. -/
theorem decode_encode_one :
    intToBytes 1 = [1, 0, 0, 0] ∧ bytesToint (intToBytes 1) = 4294967296
      ∧ bytesToint64 (int64ToBytes 1) = 0 := by decide

/-! ## The decoders, in closed form -/

theorem lor_low_byte (a : Nat) (x : Byte) :
    Int.lor ((256 * a : Nat) : Int) (ofByte x) = ((256 * a + x.val : Nat) : Int) := by
  have h := @Nat.mul_add_lt_is_or 8 x.val (by norm_num) a
  norm_num at h
  rw [h]
  rfl

/-- One round of a decoder, on an accumulator that is a multiple of 256 and small
enough not to overflow. -/
theorem decodeRound_mul (a : Nat) (x : Byte) (ha : a < 70368744177664) :
    decodeRound ((256 * a : Nat) : Int) x = ((256 * (256 * a + x.val) : Nat) : Int) := by
  unfold decodeRound
  rw [lor_low_byte, show (8 : Int) = ((8 : Nat) : Int) from rfl, Int.shiftLeft_eq_mul_pow]
  have hx := x.isLt
  unfold wrapInt64
  push_cast
  omega

theorem decodeRound_zero (x : Byte) : decodeRound 0 x = ((256 * x.val : Nat) : Int) := by
  have h := decodeRound_mul 0 x (by norm_num)
  simpa using h

theorem foldl_range4 {β : Type} (f : β → Nat → β) (z : β) :
    (List.range 4).foldl f z = f (f (f (f z 0) 1) 2) 3 := rfl

/-- The value `bytesToint` computes: the four bytes read most significant first, times
256. -/
theorem bytesToint_eq (b : List Byte) :
    bytesToint b = ((256 * (256 * (256 * (256 * (idx b 0).val + (idx b 1).val) + (idx b 2).val)
      + (idx b 3).val) : Nat) : Int) := by
  have h0 := (idx b 0).isLt
  have h1 := (idx b 1).isLt
  have h2 := (idx b 2).isLt
  have h3 := (idx b 3).isLt
  unfold bytesToint
  rw [foldl_range4, decodeRound_zero, decodeRound_mul _ _ (by omega),
    decodeRound_mul _ _ (by omega), decodeRound_mul _ _ (by omega)]

/-! ## Records and manifest -/

theorem slice_key_of_append (a k rest : List Byte) (ha : a.length = 8) (hk : k.length = 16) :
    slice (a ++ k ++ rest) 8 24 = k := by
  unfold slice
  rw [List.append_assoc, List.drop_append_eq_append_drop, List.drop_of_length_le (by omega)]
  simp [ha, ← hk]

theorem record_WriteTo_key (h : Md5) (r : record) :
    slice (record.WriteTo h r) 8 24 = metricKey.Hash h r.name := by
  unfold record.WriteTo
  simp only [List.append_assoc]
  rw [← List.append_assoc]
  exact slice_key_of_append _ _ _ (int64ToBytes_length _) (h.size _)

theorem record_WriteTo_length (h : Md5) (r : record) :
    (record.WriteTo h r).length = 28 + r.value.length := by
  simp [record.WriteTo, metricKey.Hash, int64ToBytes_length, intToBytes_length, h.size]
  omega

/-- C8. `record.WriteTo` emits the 8 bytes of the timestamp, the 16-byte hash of the
name, the 4 bytes of the value length (whose little-endian value is that length when
it is below `2^32`) and the value, `28 + len(value)` bytes in all; bytes 8..24 are
the hash, the same for two records of one name. -/
theorem record_WriteTo_layout (h : Md5) (r r2 : record) (hv : (r.value.length : Int) < 2 ^ 32) :
    record.WriteTo h r
        = int64ToBytes r.ts ++ metricKey.Hash h r.name ++ intToBytes r.value.length ++ r.value
      ∧ (int64ToBytes r.ts).length = 8
      ∧ (metricKey.Hash h r.name).length = 16
      ∧ (intToBytes r.value.length).length = 4
      ∧ ((List.range 4).map (fun i => ofByte (idx (intToBytes r.value.length) i) * 256 ^ i)).sum
          = r.value.length
      ∧ (record.WriteTo h r).length = 28 + r.value.length
      ∧ slice (record.WriteTo h r) 8 24 = metricKey.Hash h r.name
      ∧ (r2.name = r.name → slice (record.WriteTo h r2) 8 24 = slice (record.WriteTo h r) 8 24) := by
  refine ⟨rfl, int64ToBytes_length _, h.size _, intToBytes_length _, ?_, record_WriteTo_length h r,
    record_WriteTo_key h r, fun hn => ?_⟩
  · rw [digit_sum (r.value.length : Int) _ 4 (intToBytes_idx _)]
    norm_num at hv ⊢
    omega
  · rw [record_WriteTo_key, record_WriteTo_key, hn]

/-- C8 at the record `(7, "cpu", "42")`, with the padding digest for `md5.Sum`. -/
theorem record_WriteTo_layout_witness :
    record.WriteTo padDigest ⟨7, [99, 112, 117], [52, 50]⟩
        = int64ToBytes 7 ++ metricKey.Hash padDigest [99, 112, 117]
            ++ intToBytes ([52, 50] : List Byte).length ++ [52, 50]
      ∧ (record.WriteTo padDigest ⟨7, [99, 112, 117], [52, 50]⟩).length = 28 + 2 :=
  have w := record_WriteTo_layout padDigest ⟨7, [99, 112, 117], [52, 50]⟩ ⟨9, [99, 112, 117], []⟩
    (by norm_num)
  ⟨w.1, w.2.2.2.2.2.1⟩

/-- C2. Storing and loading a manifest does not give the state back. Levels mask 2
(level 1 live), not compacting, is stored as `[2,0,0,0]` and loaded as mask `2^33`;
the same mask with the compacting flag set is stored as zero and loaded as mask 0
with the flag off. -/
theorem manifest_roundtrip_fails :
    manifest.WriteTo ⟨2, false⟩ = [2, 0, 0, 0]
      ∧ (manifest.ReadFrom ⟨0, false⟩ (manifest.WriteTo ⟨2, false⟩)).1 = ⟨8589934592, false⟩
      ∧ manifest.WriteTo ⟨2, true⟩ = [0, 0, 0, 0]
      ∧ (manifest.ReadFrom ⟨0, false⟩ (manifest.WriteTo ⟨2, true⟩)).1 = ⟨0, false⟩ := by
  decide

/-! ## Go maps -/

theorem GoMap.get_set_self {κ ν : Type} [DecidableEq κ] (m : GoMap κ ν) (k : κ) (v : ν) :
    GoMap.get (GoMap.set m k v) k = some v := by
  induction m with
  | nil => simp [GoMap.set, GoMap.get]
  | cons e m ih =>
    obtain ⟨k1, v1⟩ := e
    by_cases h : k1 = k <;> simp [GoMap.set, GoMap.get, h, ih]

theorem GoMap.get_set_ne {κ ν : Type} [DecidableEq κ] (m : GoMap κ ν) (k k2 : κ) (v : ν)
    (hne : k ≠ k2) : GoMap.get (GoMap.set m k v) k2 = GoMap.get m k2 := by
  induction m with
  | nil => simp [GoMap.set, GoMap.get, hne]
  | cons e m ih =>
    obtain ⟨k1, v1⟩ := e
    by_cases h : k1 = k
    · subst h; simp [GoMap.set, GoMap.get, hne]
    · by_cases h2 : k1 = k2
      · subst h2; simp [GoMap.set, GoMap.get, h]
      · simp [GoMap.set, GoMap.get, h, h2, ih]

theorem GoMap.mem_keys_iff {κ ν : Type} [DecidableEq κ] (m : GoMap κ ν) (k : κ) :
    k ∈ GoMap.keys m ↔ (GoMap.get m k).isSome = true := by
  induction m with
  | nil => simp [GoMap.keys, GoMap.get]
  | cons e m ih =>
    obtain ⟨k1, v1⟩ := e
    by_cases h : k1 = k
    · simp [GoMap.keys, GoMap.get, h]
    · have : k ≠ k1 := fun h2 => h h2.symm
      simpa [GoMap.keys, GoMap.get, h, this] using ih

theorem GoMap.keys_set {κ ν : Type} [DecidableEq κ] (m : GoMap κ ν) (k : κ) (v : ν) :
    GoMap.keys (GoMap.set m k v) = if k ∈ GoMap.keys m then GoMap.keys m else GoMap.keys m ++ [k] := by
  induction m with
  | nil => simp [GoMap.set, GoMap.keys]
  | cons e m ih =>
    obtain ⟨k1, v1⟩ := e
    by_cases h : k1 = k
    · subst h; simp [GoMap.set, GoMap.keys]
    · have hk : k ≠ k1 := fun h2 => h h2.symm
      have ih2 : List.map Prod.fst (GoMap.set m k v)
          = if k ∈ List.map Prod.fst m then List.map Prod.fst m else List.map Prod.fst m ++ [k] := ih
      simp only [GoMap.set, GoMap.keys, h, if_false, List.map_cons, List.mem_cons, hk, false_or, ih2]
      split <;> simp

theorem GoMap.nodup_keys_set {κ ν : Type} [DecidableEq κ] (m : GoMap κ ν) (k : κ) (v : ν)
    (hm : (GoMap.keys m).Nodup) : (GoMap.keys (GoMap.set m k v)).Nodup := by
  rw [GoMap.keys_set]
  split
  · exact hm
  · rename_i hk
    exact List.Nodup.append hm (List.nodup_singleton k) (by simpa using hk)

/-! ## Grouping and sorting a batch -/

theorem recordsNamed_append (k : List Byte) (l : List record) (r : record) :
    recordsNamed k (l ++ [r]) = if r.name = k then recordsNamed k l ++ [r] else recordsNamed k l := by
  unfold recordsNamed
  rw [List.filter_append]
  by_cases h : r.name = k <;> simp [h]

theorem groupByName_append (l : List record) (r : record) :
    groupByName (l ++ [r])
      = GoMap.set (groupByName l) r.name ((GoMap.get (groupByName l) r.name).getD [] ++ [r]) := by
  simp [groupByName, List.foldl_append]

/-- Each entry of the grouping map holds the records of its name, in arrival order, and
names without records have no entry. -/
theorem groupByName_get (rds : List record) (k : List Byte) :
    GoMap.get (groupByName rds) k
      = if recordsNamed k rds = [] then none else some (recordsNamed k rds) := by
  induction rds using List.reverseRecOn with
  | nil => simp [groupByName, GoMap.get, recordsNamed]
  | append_singleton l r ih =>
    rw [groupByName_append, recordsNamed_append]
    by_cases h : r.name = k
    · subst h
      rw [GoMap.get_set_self, ih]
      by_cases he : recordsNamed r.name l = [] <;> simp [he]
    · rw [GoMap.get_set_ne _ _ _ _ h, ih]
      simp [h]

theorem groupByName_nodup (rds : List record) : (GoMap.keys (groupByName rds)).Nodup := by
  induction rds using List.reverseRecOn with
  | nil => simp [groupByName, GoMap.keys]
  | append_singleton l r ih =>
    rw [groupByName_append]
    exact GoMap.nodup_keys_set _ _ _ ih

theorem recordsNamed_ne_nil_iff (k : List Byte) (rds : List record) :
    recordsNamed k rds ≠ [] ↔ ∃ r ∈ rds, r.name = k := by
  unfold recordsNamed
  rw [Ne, List.filter_eq_nil_iff]
  simp

theorem groupByName_mem_keys (rds : List record) (k : List Byte) :
    k ∈ GoMap.keys (groupByName rds) ↔ ∃ r ∈ rds, r.name = k := by
  rw [GoMap.mem_keys_iff, groupByName_get, ← recordsNamed_ne_nil_iff]
  by_cases h : recordsNamed k rds = [] <;> simp [h]

theorem groupByName_getD (rds : List record) (k : List Byte) :
    (GoMap.get (groupByName rds) k).getD [] = recordsNamed k rds := by
  rw [groupByName_get]
  by_cases h : recordsNamed k rds = [] <;> simp [h]

theorem records_Less_asymm (x y : record) (h : records.Less x y = true) :
    records.Less y x = false := by
  simp only [records.Less, decide_eq_true_eq, decide_eq_false_iff_not] at h ⊢
  omega

theorem records_Less_negTrans (x y z : record) (h1 : records.Less x y = false)
    (h2 : records.Less y z = false) : records.Less x z = false := by
  simp only [records.Less, decide_eq_false_iff_not] at h1 h2 ⊢
  omega

theorem preSorted_Less_iff (p q : List record) :
    preSortedRecords.Less p q = true ↔ firstName p < firstName q := by
  unfold preSortedRecords.Less strings.Compare
  by_cases h : firstName p < firstName q
  · simp [h]
  · by_cases h2 : firstName p = firstName q <;> simp [h, h2]

theorem preSorted_Less_false_iff (p q : List record) :
    preSortedRecords.Less p q = false ↔ firstName q ≤ firstName p := by
  rw [← not_lt, ← preSorted_Less_iff]
  simp

theorem preSorted_Less_asymm (p q : List record) (h : preSortedRecords.Less p q = true) :
    preSortedRecords.Less q p = false := by
  rw [preSorted_Less_iff] at h
  rw [preSorted_Less_false_iff]
  exact le_of_lt h

theorem preSorted_Less_negTrans (p q s : List record) (h1 : preSortedRecords.Less p q = false)
    (h2 : preSortedRecords.Less q s = false) : preSortedRecords.Less p s = false := by
  rw [preSorted_Less_false_iff] at h1 h2 ⊢
  exact le_trans h2 h1

theorem sortedGroup_perm (S : GoSort) (rds : List record) (k : List Byte) :
    (sortedGroup S rds k).Perm (recordsNamed k rds) := S.perm _ _

theorem sortedGroup_name (S : GoSort) (rds : List record) (k : List Byte) (r : record)
    (hr : r ∈ sortedGroup S rds k) : r.name = k := by
  have := (sortedGroup_perm S rds k).mem_iff.1 hr
  simpa [recordsNamed] using (List.mem_filter.1 this).2

theorem sortedGroup_ne_nil (S : GoSort) (rds : List record) (k : List Byte)
    (hk : ∃ r ∈ rds, r.name = k) : sortedGroup S rds k ≠ [] := by
  intro h
  have hp := sortedGroup_perm S rds k
  rw [h] at hp
  exact (recordsNamed_ne_nil_iff k rds).2 hk (List.Perm.nil_eq hp).symm

theorem firstName_sortedGroup (S : GoSort) (rds : List record) (k : List Byte)
    (hk : ∃ r ∈ rds, r.name = k) : firstName (sortedGroup S rds k) = k := by
  have hne := sortedGroup_ne_nil S rds k hk
  cases hg : sortedGroup S rds k with
  | nil => exact absurd hg hne
  | cons r t =>
    have : r ∈ sortedGroup S rds k := by rw [hg]; simp
    simpa [firstName] using sortedGroup_name S rds k r this

theorem sortedGroup_sorted (S : GoSort) (rds : List record) (k : List Byte) :
    ((sortedGroup S rds k).map (fun r => r.ts)).Sorted (· ≤ ·) := by
  have h := S.sorted records.Less (recordsNamed k rds) records_Less_asymm records_Less_negTrans
  unfold List.Sorted
  rw [List.pairwise_map]
  refine List.Pairwise.imp ?_ h
  intro a b hab
  simpa [records.Less] using hab

/-- Membership in the result of `sortLogFileRecords`: the groups are the sorted groups
of the names that occur. -/
theorem mem_sortLogFileRecords (S : GoSort) (R : MapRange) (rds : List record)
    (g : List record) :
    g ∈ sortLogFileRecords S R rds ↔ ∃ k, (∃ r ∈ rds, r.name = k) ∧ g = sortedGroup S rds k := by
  unfold sortLogFileRecords
  simp only
  rw [(S.perm _ _).mem_iff, List.mem_map]
  constructor
  · rintro ⟨k, hk, rfl⟩
    rw [(R.perm _).mem_iff, groupByName_mem_keys] at hk
    exact ⟨k, hk, by rw [groupByName_getD]; rfl⟩
  · rintro ⟨k, hk, rfl⟩
    refine ⟨k, ?_, by rw [groupByName_getD]; rfl⟩
    rw [(R.perm _).mem_iff, groupByName_mem_keys]
    exact hk

theorem sortLogFileRecords_names_perm (S : GoSort) (R : MapRange) (rds : List record) :
    ((sortLogFileRecords S R rds).map firstName).Perm (GoMap.keys (groupByName rds)) := by
  unfold sortLogFileRecords
  simp only
  refine ((S.perm _ _).map firstName).trans ?_
  rw [List.map_map]
  have : List.map (firstName ∘ fun k => S.sort records.Less ((GoMap.get (groupByName rds) k).getD []))
      (R.order (GoMap.keys (groupByName rds))) = R.order (GoMap.keys (groupByName rds)) := by
    conv_rhs => rw [← List.map_id (R.order (GoMap.keys (groupByName rds)))]
    apply List.map_congr_left
    intro k hk
    rw [(R.perm _).mem_iff, groupByName_mem_keys] at hk
    simp only [Function.comp, groupByName_getD, id]
    exact firstName_sortedGroup S rds k hk
  rw [this]
  exact R.perm _

theorem sortLogFileRecords_names_sorted (S : GoSort) (R : MapRange) (rds : List record) :
    ((sortLogFileRecords S R rds).map firstName).Sorted (· < ·) := by
  have hnd : ((sortLogFileRecords S R rds).map firstName).Nodup :=
    (sortLogFileRecords_names_perm S R rds).nodup_iff.2 (groupByName_nodup rds)
  have hs : ((sortLogFileRecords S R rds).map firstName).Pairwise (· ≤ ·) := by
    rw [List.pairwise_map]
    have h := S.sorted preSortedRecords.Less
      ((R.order (GoMap.keys (groupByName rds))).map
        (fun k => S.sort records.Less ((GoMap.get (groupByName rds) k).getD [])))
      preSorted_Less_asymm preSorted_Less_negTrans
    refine List.Pairwise.imp ?_ h
    intro a b hab
    exact (preSorted_Less_false_iff b a).1 hab
  exact (hs.and hnd).imp (fun h => lt_of_le_of_ne h.1 h.2)

/-! ## The segment writer -/

theorem foldl_write {α : Type} (f : α → List Byte) (l : List α) (w : List Byte) :
    l.foldl (fun w x => w ++ f x) w = w ++ (l.map f).flatten := by
  induction l generalizing w with
  | nil => simp
  | cons a l ih => simp [ih]

theorem writeKeys_ok (rs : List (List record)) (w : List Byte) (hg : ∀ g ∈ rs, g ≠ []) :
    writeKeys rs w = ⟨w ++ keysSection rs, true⟩ := by
  induction rs generalizing w with
  | nil => simp [writeKeys, keysSection]
  | cons g rs ih =>
    cases g with
    | nil => exact absurd rfl (hg [] (by simp))
    | cons r t =>
      rw [writeKeys, ih _ (fun g hgm => hg g (by simp [hgm]))]
      simp [keysSection, firstName]

theorem writeCounts_eq (rs : List (List record)) (w : List Byte) :
    writeCounts rs w = w ++ countsSection rs := by
  unfold writeCounts countsSection
  exact foldl_write (fun g => intToBytes (g.length : Int)) rs w

theorem writeTimestamps_eq (rs : List (List record)) (w : List Byte) :
    writeTimestamps rs w = w ++ timestampsSection rs := by
  unfold writeTimestamps timestampsSection
  rw [← foldl_write]
  congr 1
  funext w g
  rw [foldl_write]
  simp [timestampBlock, List.map_map, Function.comp_def]

theorem writeValueLengths_eq (rs : List (List record)) (w : List Byte) :
    writeValueLengths rs w = w ++ valueLengthsSection rs := by
  unfold writeValueLengths valueLengthsSection
  rw [← foldl_write]
  congr 1
  funext w g
  rw [foldl_write]

theorem writeValues_eq (rs : List (List record)) (w : List Byte) :
    writeValues rs w = w ++ valuesSection rs := by
  unfold writeValues valuesSection
  rw [← foldl_write]
  congr 1
  funext w g
  rw [foldl_write]

/-- The bytes written for a batch whose first and last records exist and whose groups
are all non-empty: header and the five sections, and no panic. -/
theorem writeLogFileInLsmFormat_sections (rs : List (List record)) (n : Int) (first last : record)
    (hf : (rs.head? >>= List.head?) = some first)
    (hl : (rs.getLast? >>= List.getLast?) = some last) (hg : ∀ g ∈ rs, g ≠ []) :
    writeLogFileInLsmFormat rs n
      = ⟨lsmMetaInfo.WriteTo ⟨first.ts, last.ts, n, rs.length⟩ ++ keysSection rs ++ countsSection rs
          ++ timestampsSection rs ++ valueLengthsSection rs ++ valuesSection rs, true⟩ := by
  unfold writeLogFileInLsmFormat
  rw [hf, hl]
  simp only [writeKeys_ok rs _ hg, writeCounts_eq, writeTimestamps_eq, writeValueLengths_eq,
    writeValues_eq]

theorem first_last_exist (rs : List (List record)) (hrs : rs ≠ []) (hg : ∀ g ∈ rs, g ≠ []) :
    ∃ first last, (rs.head? >>= List.head?) = some first
      ∧ (rs.getLast? >>= List.getLast?) = some last := by
  obtain ⟨g0, h0⟩ : ∃ g0, rs.head? = some g0 := by
    cases rs with
    | nil => exact absurd rfl hrs
    | cons a t => exact ⟨a, rfl⟩
  obtain ⟨g1, h1⟩ : ∃ g1, rs.getLast? = some g1 :=
    ⟨rs.getLast hrs, List.getLast?_eq_getLast rs hrs⟩
  have hg0 : g0 ≠ [] := hg g0 (List.mem_of_mem_head? h0)
  have hg1 : g1 ≠ [] := hg g1 (List.mem_of_mem_getLast? h1)
  obtain ⟨first, hfirst⟩ : ∃ first, g0.head? = some first := by
    cases g0 with
    | nil => exact absurd rfl hg0
    | cons a t => exact ⟨a, rfl⟩
  refine ⟨first, g1.getLast hg1, ?_, ?_⟩
  · rw [h0]; exact hfirst
  · rw [h1]; exact List.getLast?_eq_getLast g1 hg1

theorem lsmMetaInfo_WriteTo_length (m : lsmMetaInfo) : (lsmMetaInfo.WriteTo m).length = 24 := by
  simp [lsmMetaInfo.WriteTo, int64ToBytes_length, intToBytes_length]

theorem keysSection_length (rs : List (List record)) (hk : ∀ g ∈ rs, (firstName g).length = 16) :
    (keysSection rs).length = 16 * rs.length := by
  induction rs with
  | nil => rfl
  | cons g rs ih =>
    have h1 := hk g (by simp)
    have h2 := ih (fun g hgm => hk g (by simp [hgm]))
    simp only [keysSection, List.map_cons, List.flatten_cons, List.length_append, List.length_cons] at h2 ⊢
    rw [h1, h2]; ring

theorem countsSection_length (rs : List (List record)) :
    (countsSection rs).length = 4 * rs.length := by
  induction rs with
  | nil => rfl
  | cons g rs ih =>
    simp only [countsSection, List.map_cons, List.flatten_cons, List.length_append, List.length_cons,
      intToBytes_length] at ih ⊢
    rw [ih]; ring

theorem timestampBlock_length (g : List record) : (timestampBlock g).length = 8 * g.length := by
  induction g with
  | nil => rfl
  | cons r g ih =>
    simp only [timestampBlock, List.map_cons, List.flatten_cons, List.length_append, List.length_cons,
      int64ToBytes_length] at ih ⊢
    rw [ih]; ring

theorem timestampsSection_length (rs : List (List record)) :
    (timestampsSection rs).length = 8 * (rs.map List.length).sum := by
  induction rs with
  | nil => rfl
  | cons g rs ih =>
    simp only [timestampsSection, List.map_cons, List.flatten_cons, List.length_append,
      List.sum_cons, timestampBlock_length] at ih ⊢
    rw [ih]; ring

theorem valueLengthsBlock_length (g : List record) :
    ((g.map (fun r => intToBytes r.value.length)).flatten).length = 4 * g.length := by
  induction g with
  | nil => rfl
  | cons r g ih =>
    simp only [List.map_cons, List.flatten_cons, List.length_append, List.length_cons,
      intToBytes_length] at ih ⊢
    rw [ih]; ring

theorem valueLengthsSection_length (rs : List (List record)) :
    (valueLengthsSection rs).length = 4 * (rs.map List.length).sum := by
  induction rs with
  | nil => rfl
  | cons g rs ih =>
    simp only [valueLengthsSection, List.map_cons, List.flatten_cons, List.length_append,
      List.sum_cons, valueLengthsBlock_length] at ih ⊢
    rw [ih]; ring

theorem valuesSection_length (rs : List (List record)) :
    (valuesSection rs).length = ((rs.flatten).map (fun r => r.value.length)).sum := by
  induction rs with
  | nil => rfl
  | cons g rs ih =>
    simp only [valuesSection, List.map_cons, List.flatten_cons, List.length_append,
      List.map_append, List.sum_append] at ih ⊢
    rw [ih]
    congr 1
    induction g with
    | nil => rfl
    | cons r g ihg => simp [ihg]

/-! ## Claims on the built segment -/

theorem sortLogFileRecords_group (S : GoSort) (R : MapRange) (rds : List record)
    (g : List record) (hgm : g ∈ sortLogFileRecords S R rds) :
    g ≠ [] ∧ (∀ r ∈ g, r.name = firstName g) ∧ (g.map (fun r => r.ts)).Sorted (· ≤ ·) := by
  obtain ⟨k, hk, rfl⟩ := (mem_sortLogFileRecords S R rds g).1 hgm
  refine ⟨sortedGroup_ne_nil S rds k hk, fun r hr => ?_, sortedGroup_sorted S rds k⟩
  rw [firstName_sortedGroup S rds k hk]
  exact sortedGroup_name S rds k r hr

theorem sortLogFileRecords_ne_nil (S : GoSort) (R : MapRange) (rds : List record)
    (hrds : rds ≠ []) : sortLogFileRecords S R rds ≠ [] := by
  obtain ⟨r, hr⟩ := List.exists_mem_of_ne_nil rds hrds
  have hm : sortedGroup S rds r.name ∈ sortLogFileRecords S R rds :=
    (mem_sortLogFileRecords S R rds _).2 ⟨r.name, ⟨r, hr, rfl⟩, rfl⟩
  exact List.ne_nil_of_mem hm

/-- C4. Every group that `sortLogFileRecords` returns is non-empty, holds records of
one name only and has non-decreasing timestamps; for a non-empty batch
`writeLogFileInLsmFormat` returns, and after the 24-byte header, the keys and the
counts it writes the timestamp blocks of the groups in order, every block being the
encoding of such a non-decreasing list. -/
theorem built_groups_time_ordered (S : GoSort) (R : MapRange) (rds : List record) :
    (∀ g ∈ sortLogFileRecords S R rds,
        g ≠ [] ∧ (∀ r ∈ g, r.name = firstName g)
          ∧ (∀ x y rest pre, g = pre ++ x :: y :: rest → x.ts ≤ y.ts)
          ∧ (g.map (fun r => r.ts)).Sorted (· ≤ ·)
          ∧ timestampBlock g = ((g.map (fun r => r.ts)).map int64ToBytes).flatten)
      ∧ (rds ≠ [] → ∃ pre post,
          writeLogFileInLsmFormat (sortLogFileRecords S R rds) rds.length
            = ⟨pre ++ ((sortLogFileRecords S R rds).map timestampBlock).flatten ++ post, true⟩
          ∧ pre.length = 24 + (keysSection (sortLogFileRecords S R rds)).length
              + 4 * (sortLogFileRecords S R rds).length) := by
  constructor
  · intro g hgm
    obtain ⟨h1, h2, h3⟩ := sortLogFileRecords_group S R rds g hgm
    refine ⟨h1, h2, ?_, h3, rfl⟩
    intro x y rest pre hg
    rw [hg] at h3
    simp only [List.map_append, List.map_cons, List.Sorted] at h3
    have := (List.pairwise_append.1 h3).2.1
    exact List.rel_of_pairwise_cons this (by simp)
  · intro hrds
    have hne := sortLogFileRecords_ne_nil S R rds hrds
    have hg : ∀ g ∈ sortLogFileRecords S R rds, g ≠ [] :=
      fun g hgm => (sortLogFileRecords_group S R rds g hgm).1
    obtain ⟨first, last, hf, hl⟩ := first_last_exist _ hne hg
    refine ⟨lsmMetaInfo.WriteTo ⟨first.ts, last.ts, rds.length, (sortLogFileRecords S R rds).length⟩
        ++ keysSection (sortLogFileRecords S R rds) ++ countsSection (sortLogFileRecords S R rds),
      valueLengthsSection (sortLogFileRecords S R rds) ++ valuesSection (sortLogFileRecords S R rds),
      ?_, ?_⟩
    · rw [writeLogFileInLsmFormat_sections _ _ first last hf hl hg]
      simp only [timestampsSection, List.append_assoc]
    · simp only [List.length_append, lsmMetaInfo_WriteTo_length, countsSection_length]

/-- C5. `sortLogFileRecords` returns one group per distinct name of the batch: the
keys of the groups are strictly ascending in byte-wise lexicographic order (so no key
repeats), they are exactly the names that occur, every record of a group carries the
group's key, and there are as many groups as distinct names, whatever order the map
is iterated in and whatever (unstable) sort is used. -/
theorem built_groups_key_ordered (S : GoSort) (R : MapRange) (rds : List record) :
    ((sortLogFileRecords S R rds).map firstName).Sorted (· < ·)
      ∧ (∀ k, k ∈ (sortLogFileRecords S R rds).map firstName ↔ ∃ r ∈ rds, r.name = k)
      ∧ (∀ g ∈ sortLogFileRecords S R rds, g ≠ [] ∧ ∀ r ∈ g, r.name = firstName g)
      ∧ ((sortLogFileRecords S R rds).map firstName).Perm ((rds.map (fun r => r.name)).dedup) := by
  have hs := sortLogFileRecords_names_sorted S R rds
  have hmem : ∀ k, k ∈ (sortLogFileRecords S R rds).map firstName ↔ ∃ r ∈ rds, r.name = k := by
    intro k
    rw [(sortLogFileRecords_names_perm S R rds).mem_iff, groupByName_mem_keys]
  refine ⟨hs, hmem, fun g hgm => ?_, ?_⟩
  · obtain ⟨h1, h2, _⟩ := sortLogFileRecords_group S R rds g hgm
    exact ⟨h1, h2⟩
  · rw [List.perm_ext_iff_of_nodup hs.nodup (List.nodup_dedup _)]
    intro k
    rw [hmem, List.mem_dedup, List.mem_map]

theorem sortLogFileRecords_skewedBatch (S : GoSort) (R : MapRange) :
    sortLogFileRecords S R skewedBatch = [[⟨5, [97], []⟩], [⟨1, [98], []⟩]] := by
  have hs := sortLogFileRecords_names_sorted S R skewedBatch
  have hp := sortLogFileRecords_names_perm S R skewedBatch
  have hkeys : GoMap.keys (groupByName skewedBatch) = [[97], [98]] := by decide
  rw [hkeys] at hp
  have hnames : (sortLogFileRecords S R skewedBatch).map firstName = [[97], [98]] :=
    List.eq_of_perm_of_sorted hp hs (by decide)
  have hgroup : ∀ g ∈ sortLogFileRecords S R skewedBatch,
      g = sortedGroup S skewedBatch (firstName g) := by
    intro g hgm
    obtain ⟨k, hk, rfl⟩ := (mem_sortLogFileRecords S R skewedBatch g).1 hgm
    rw [firstName_sortedGroup S skewedBatch k hk]
  have ha : sortedGroup S skewedBatch [97] = [⟨5, [97], []⟩] :=
    List.perm_singleton.1 (sortedGroup_perm S skewedBatch [97])
  have hb : sortedGroup S skewedBatch [98] = [⟨1, [98], []⟩] :=
    List.perm_singleton.1 (sortedGroup_perm S skewedBatch [98])
  match hres : sortLogFileRecords S R skewedBatch, hnames, hgroup with
  | [g1, g2], hn, hgr =>
    simp only [List.map_cons, List.map_nil, List.cons.injEq, and_true] at hn
    have e1 := hgr g1 (by simp)
    have e2 := hgr g2 (by simp)
    rw [hn.1, ha] at e1
    rw [hn.2, hb] at e2
    rw [e1, e2]
  | [], hn, _ => simp at hn
  | [_], hn, _ => simp at hn
  | _ :: _ :: _ :: _, hn, _ => simp at hn

/-- C6. The header does not hold the minimum and maximum timestamp of the batch: for
the batch `(5, a), (1, b)` the groups are `a:[5]`, `b:[1]` under every sort and map
order, and the header written has `start_ts` 5 (first record of the first group) and
`end_ts` 1 (last record of the last group), while the minimum is 1 and the maximum 5. -/
theorem header_time_range_skewed (S : GoSort) (R : MapRange) :
    (writeLogFileInLsmFormat (sortLogFileRecords S R skewedBatch) skewedBatch.length).ok = true
      ∧ slice (writeLogFileInLsmFormat (sortLogFileRecords S R skewedBatch)
          skewedBatch.length).out 0 8 = int64ToBytes 5
      ∧ slice (writeLogFileInLsmFormat (sortLogFileRecords S R skewedBatch)
          skewedBatch.length).out 8 16 = int64ToBytes 1
      ∧ (skewedBatch.map (fun r => r.ts)).minimum = some 1
      ∧ (skewedBatch.map (fun r => r.ts)).maximum = some 5 := by
  rw [sortLogFileRecords_skewedBatch]
  decide

/-- C7. For a non-empty list of `k` non-empty groups with 16-byte keys and `n` records
in all, `writeLogFileInLsmFormat` returns and writes exactly the 24-byte header
(start 8, end 8, total 4, key count 4), the keys (`16k` bytes), the counts (`4k`), the
timestamps (`8n`), the value lengths (`4n`) and the values, in this order:
`24 + 20k + 12n + (sum of value lengths)` bytes. -/
theorem segment_column_layout (rs : List (List record)) (n : Nat) (hrs : rs ≠ [])
    (hg : ∀ g ∈ rs, g ≠ []) (hkey : ∀ g ∈ rs, (firstName g).length = 16)
    (hn : (rs.map List.length).sum = n) (hn32 : n < 2 ^ 32) (hk32 : rs.length < 2 ^ 32) :
    ∃ first last, (rs.head? >>= List.head?) = some first
      ∧ (rs.getLast? >>= List.getLast?) = some last
      ∧ writeLogFileInLsmFormat rs n
          = ⟨int64ToBytes first.ts ++ int64ToBytes last.ts ++ intToBytes n ++ intToBytes rs.length
              ++ keysSection rs ++ countsSection rs ++ timestampsSection rs
              ++ valueLengthsSection rs ++ valuesSection rs, true⟩
      ∧ (int64ToBytes first.ts).length = 8 ∧ (int64ToBytes last.ts).length = 8
      ∧ (intToBytes n).length = 4 ∧ (intToBytes rs.length).length = 4
      ∧ ((List.range 4).map (fun i => ofByte (idx (intToBytes n) i) * 256 ^ i)).sum = n
      ∧ ((List.range 4).map (fun i => ofByte (idx (intToBytes rs.length) i) * 256 ^ i)).sum
          = rs.length
      ∧ (keysSection rs).length = 16 * rs.length
      ∧ (countsSection rs).length = 4 * rs.length
      ∧ (timestampsSection rs).length = 8 * n
      ∧ (valueLengthsSection rs).length = 4 * n
      ∧ (valuesSection rs).length = ((rs.flatten).map (fun r => r.value.length)).sum
      ∧ (writeLogFileInLsmFormat rs n).out.length
          = 24 + 20 * rs.length + 12 * n + ((rs.flatten).map (fun r => r.value.length)).sum := by
  obtain ⟨first, last, hf, hl⟩ := first_last_exist rs hrs hg
  have hw := writeLogFileInLsmFormat_sections rs n first last hf hl hg
  have hks := keysSection_length rs hkey
  have hcs := countsSection_length rs
  have hts := timestampsSection_length rs
  have hls := valueLengthsSection_length rs
  have hvs := valuesSection_length rs
  rw [hn] at hts hls
  refine ⟨first, last, hf, hl, hw, int64ToBytes_length _, int64ToBytes_length _,
    intToBytes_length _, intToBytes_length _, ?_, ?_, hks, hcs, hts, hls, hvs, ?_⟩
  · rw [digit_sum (n : Int) _ 4 (intToBytes_idx _)]
    have : (n : Int) < 2 ^ 32 := by exact_mod_cast hn32
    norm_num at this ⊢
    omega
  · rw [digit_sum (rs.length : Int) _ 4 (intToBytes_idx _)]
    have : (rs.length : Int) < 2 ^ 32 := by exact_mod_cast hk32
    norm_num at this ⊢
    omega
  · rw [hw]
    simp only [List.length_append, lsmMetaInfo_WriteTo_length, hks, hcs, hts, hls, hvs]
    ring

/-- C7 at two groups, `A` with two records and `B` with one: 103 bytes. -/
theorem segment_column_layout_witness :
    (writeLogFileInLsmFormat
        [[⟨1, key16 65, [7]⟩, ⟨2, key16 65, [8, 9]⟩], [⟨5, key16 66, []⟩]] (3 : Nat)).out.length
      = 24 + 20 * 2 + 12 * 3 + 3 := by
  obtain ⟨_, _, _, _, _, _, _, _, _, _, _, _, _, _, _, _, h⟩ :=
    segment_column_layout [[⟨1, key16 65, [7]⟩, ⟨2, key16 65, [8, 9]⟩], [⟨5, key16 66, []⟩]] 3
      (by decide) (by decide) (by decide) (by decide) (by norm_num) (by norm_num)
  exact h

/-! ## The merge -/

theorem GoMap.set_ne_nil {κ ν : Type} [DecidableEq κ] (m : GoMap κ ν) (k : κ) (v : ν) :
    GoMap.set m k v ≠ [] := by
  cases m with
  | nil => simp [GoMap.set]
  | cons e m =>
    obtain ⟨k1, v1⟩ := e
    by_cases h : k1 = k <;> simp [GoMap.set, h]

theorem foldl_ne_nil {α β : Type} (f : List β → α → List β) (hf : ∀ m x, f m x ≠ [])
    (l : List α) (m : List β) (h : l ≠ [] ∨ m ≠ []) : l.foldl f m ≠ [] := by
  induction l generalizing m with
  | nil => simpa using h
  | cons a l ih => exact ih (f m a) (Or.inr (hf m a))

theorem oldKeyMap_ne_nil (oldkeyb : List Byte) (keycount : Int) (h : 1 ≤ keycount) :
    oldKeyMap oldkeyb keycount ≠ [] := by
  unfold oldKeyMap
  refine foldl_ne_nil _ (fun m i => GoMap.set_ne_nil _ _ _) _ _ (Or.inl ?_)
  have : 0 < keycount.toNat := by omega
  intro hr
  rw [List.range_eq_nil] at hr
  omega

theorem newKeyMap_ne_nil (m : GoMap (List Byte) (Int × Int × Int × Int)) (newkeyb : List Byte)
    (keycount : Int) (h : m ≠ [] ∨ 1 ≤ keycount) : newKeyMap m newkeyb keycount ≠ [] := by
  unfold newKeyMap
  refine foldl_ne_nil _ (fun m i => GoMap.set_ne_nil _ _ _) _ _ ?_
  rcases h with h | h
  · exact Or.inr h
  · left
    have : 0 < keycount.toNat := by omega
    intro hr
    rw [List.range_eq_nil] at hr
    omega

theorem fillKeys_of_ne_nil (R : MapRange) (m : GoMap (List Byte) (Int × Int × Int × Int))
    (h : m ≠ []) : fillKeys R m = none := by
  unfold fillKeys
  have hp := R.perm (GoMap.keys m)
  cases ho : R.order (GoMap.keys m) with
  | nil =>
    rw [ho] at hp
    have : GoMap.keys m = [] := List.Perm.nil_eq hp |>.symm
    simp [GoMap.keys] at this
    exact absurd this h
  | cons a l => rfl

theorem mergeFrom_panics (S : GoSort) (R : MapRange) (old new : File)
    (oldHeader newHeader : lsmMetaInfo) (bIsOld : Bool)
    (h : 1 ≤ oldHeader.keycount ∨ 1 ≤ newHeader.keycount) :
    mergeFrom S R old new oldHeader newHeader bIsOld = ⟨[], false⟩ := by
  unfold mergeFrom
  simp only
  rw [fillKeys_of_ne_nil]
  apply newKeyMap_ne_nil
  rcases h with h | h
  · exact Or.inl (oldKeyMap_ne_nil _ _ h)
  · exact Or.inr h

theorem File.rest_Seek_start (a : File) : ((a.Seek 0 0).2).rest = a.data := rfl

/-- When the key count decoded from either header is at least 1, `mergeLSMFiles` stops
in the index-out-of-range panic of line 363, before the first write. -/
theorem mergeLSMFiles_panics (S : GoSort) (R : MapRange) (a b : File)
    (h : 1 ≤ (lsmMetaInfo.ReadFrom a.data).1.keycount
      ∨ 1 ≤ (lsmMetaInfo.ReadFrom b.data).1.keycount) :
    mergeLSMFiles S R a b = ⟨[], false⟩ := by
  unfold mergeLSMFiles
  simp only [File.rest_Seek_start]
  split
  · exact mergeFrom_panics S R _ _ _ _ _ h.symm
  · exact mergeFrom_panics S R _ _ _ _ _ h

theorem Read_header_append (m : lsmMetaInfo) (rest : List Byte) :
    (Reader.Read 24 (lsmMetaInfo.WriteTo m ++ rest)).1 = lsmMetaInfo.WriteTo m := by
  have h := lsmMetaInfo_WriteTo_length m
  unfold Reader.Read
  simp only
  rw [List.take_append_of_le_length (by omega), List.take_of_length_le (by omega)]
  simp [h]

theorem slice_append_right (p q : List Byte) (lo hi : Nat) (hp : p.length = lo)
    (hq : q.length = hi - lo) : slice (p ++ q) lo hi = q := by
  unfold slice
  rw [← hp, List.drop_left, hp, ← hq, List.take_length]

theorem slice_keycount_WriteTo (m : lsmMetaInfo) :
    slice (lsmMetaInfo.WriteTo m) 20 24 = intToBytes m.keycount := by
  unfold lsmMetaInfo.WriteTo
  exact slice_append_right _ _ 20 24
    (by simp [int64ToBytes_length, intToBytes_length]) (by simp [intToBytes_length])

theorem ReadFrom_keycount (r : Reader) :
    (lsmMetaInfo.ReadFrom r).1.keycount = bytesToint (slice (Reader.Read 24 r).1 20 24) := by
  simp only [lsmMetaInfo.ReadFrom]

theorem range4_map_sum (f : Nat → Int) :
    ((List.range 4).map f).sum = f 0 + (f 1 + (f 2 + (f 3 + 0))) := rfl

/-- The key count that `lsmMetaInfo.ReadFrom` decodes from a written header of `k` keys,
`1 <= k < 2^32`, is at least 1 (it is the byte-reversed `k` times 256). -/
theorem decoded_keycount_pos (m : lsmMetaInfo) (rest : List Byte) (h1 : 1 ≤ m.keycount)
    (h2 : m.keycount < 4294967296) :
    1 ≤ (lsmMetaInfo.ReadFrom (lsmMetaInfo.WriteTo m ++ rest)).1.keycount := by
  rw [ReadFrom_keycount, Read_header_append, slice_keycount_WriteTo, bytesToint_eq]
  have hs := digit_sum m.keycount _ 4 (intToBytes_idx m.keycount)
  rw [range4_map_sum] at hs
  have e : m.keycount % 256 ^ 4 = m.keycount := Int.emod_eq_of_lt (by omega) (by norm_num; omega)
  rw [e] at hs
  simp only [ofByte] at hs
  norm_num at hs
  have b0 := (idx (intToBytes m.keycount) 0).isLt
  have b1 := (idx (intToBytes m.keycount) 1).isLt
  have b2 := (idx (intToBytes m.keycount) 2).isLt
  have b3 := (idx (intToBytes m.keycount) 3).isLt
  push_cast
  omega

/-- A segment built from at least one group decodes to a key count of at least 1. -/
theorem built_segment_keycount_pos (rs : List (List record)) (n : Int) (hrs : rs ≠ [])
    (hg : ∀ g ∈ rs, g ≠ []) (hk : rs.length < 4294967296) :
    1 ≤ (lsmMetaInfo.ReadFrom (writeLogFileInLsmFormat rs n).out).1.keycount := by
  obtain ⟨first, last, hf, hl⟩ := first_last_exist rs hrs hg
  rw [writeLogFileInLsmFormat_sections rs n first last hf hl hg]
  simp only [List.append_assoc]
  apply decoded_keycount_pos
  · have : 0 < rs.length := List.length_pos.2 hrs
    show (1 : Int) ≤ (rs.length : Int)
    omega
  · show (rs.length : Int) < 4294967296
    omega

/-- Merging two segments of which the first was built from at least one group never
completes: it panics before the first write. -/
theorem merge_built_segment_panics (S : GoSort) (R : MapRange) (rs : List (List record))
    (n : Int) (other : File) (hrs : rs ≠ []) (hg : ∀ g ∈ rs, g ≠ [])
    (hk : rs.length < 4294967296) :
    mergeLSMFiles S R ⟨(writeLogFileInLsmFormat rs n).out, 0⟩ other = ⟨[], false⟩
      ∧ mergeLSMFiles S R other ⟨(writeLogFileInLsmFormat rs n).out, 0⟩ = ⟨[], false⟩ :=
  ⟨mergeLSMFiles_panics S R _ _ (Or.inl (built_segment_keycount_pos rs n hrs hg hk)),
    mergeLSMFiles_panics S R _ _ (Or.inr (built_segment_keycount_pos rs n hrs hg hk))⟩

/-- C3. On the segments of the example, `old = {A:[1,2], B:[5]}` (end_ts 5) and
`new = {A:[10], C:[7]}` (end_ts 7), `mergeLSMFiles` does not complete under any sort or
map order and in either argument order: it panics at `ks[i] = ...` (line 363, `ks`
has length 0) and has written no byte, so no merged segment with keys `A, B, C`
exists. -/
theorem merge_example_panics (S : GoSort) (R : MapRange) :
    slice oldSegment 8 16 = int64ToBytes 5 ∧ slice newSegment 8 16 = int64ToBytes 7
      ∧ mergeLSMFiles S R ⟨oldSegment, 0⟩ ⟨newSegment, 0⟩ = ⟨[], false⟩
      ∧ mergeLSMFiles S R ⟨newSegment, 0⟩ ⟨oldSegment, 0⟩ = ⟨[], false⟩ :=
  ⟨by decide, by decide,
    (merge_built_segment_panics S R _ 3 ⟨newSegment, 0⟩ (by decide) (by decide) (by decide)).1,
    (merge_built_segment_panics S R _ 3 ⟨newSegment, 0⟩ (by decide) (by decide) (by decide)).2⟩

/-! ## Manifest levels -/

theorem levelBit_eq (k : Nat) (hk : k ≤ 62) : levelBit k = ((2 ^ k : Nat) : Int) := by
  unfold levelBit
  rw [Int.shiftLeft_eq_mul_pow]
  have h1 : 2 ^ k ≤ 2 ^ 62 := Nat.pow_le_pow_right (by norm_num) hk
  have h2 : 0 < 2 ^ k := Nat.pos_pow_of_pos k (by norm_num)
  unfold wrapInt64
  norm_num at h1
  omega

theorem nat_and_two_pow_iff (m k : Nat) : m &&& 2 ^ k = 2 ^ k ↔ m.testBit k = true := by
  constructor
  · intro h
    have := congrArg (fun x => Nat.testBit x k) h
    simpa [Nat.testBit_and, Nat.testBit_two_pow] using this
  · intro h
    apply Nat.eq_of_testBit_eq
    intro i
    rw [Nat.testBit_and, Nat.testBit_two_pow]
    by_cases hi : k = i
    · subst hi; simp [h]
    · simp [hi]

theorem nat_ldiff_two_pow_iff (n k : Nat) : Nat.ldiff (2 ^ k) n = 2 ^ k ↔ n.testBit k = false := by
  constructor
  · intro h
    have := congrArg (fun x => Nat.testBit x k) h
    simpa [Nat.testBit_ldiff, Nat.testBit_two_pow] using this
  · intro h
    apply Nat.eq_of_testBit_eq
    intro i
    rw [Nat.testBit_ldiff, Nat.testBit_two_pow]
    by_cases hi : k = i
    · subst hi; simp [h]
    · simp [hi]

/-- Masking with a single bit gives that bit back exactly when the bit is set, for
negative integers (two's complement) too. -/
theorem land_two_pow_iff (x : Int) (k : Nat) :
    Int.land x ((2 ^ k : Nat) : Int) = ((2 ^ k : Nat) : Int) ↔ x.testBit k = true := by
  cases x with
  | ofNat m =>
    show (((m &&& 2 ^ k : Nat)) : Int) = ((2 ^ k : Nat) : Int) ↔ m.testBit k = true
    rw [← nat_and_two_pow_iff]
    exact Int.ofNat_inj
  | negSucc n =>
    show (((Nat.ldiff (2 ^ k) n : Nat)) : Int) = ((2 ^ k : Nat) : Int) ↔ (!n.testBit k) = true
    rw [Int.ofNat_inj, nat_ldiff_two_pow_iff]
    simp

theorem levelExists_iff_testBit (m : manifest) (k : Nat) (hk : k ≤ 62) :
    m.levelExists k = true ↔ m.levels.testBit k = true := by
  unfold manifest.levelExists
  rw [levelBit_eq k hk, beq_iff_eq, land_two_pow_iff]

theorem testBit_two_pow_int (l k : Nat) : Int.testBit ((2 ^ l : Nat) : Int) k = decide (l = k) := by
  show Nat.testBit (2 ^ l) k = decide (l = k)
  exact Nat.testBit_two_pow

theorem levelExists_setLevel (m : manifest) (l k : Nat) (hl : l ≤ 62) (hk : k ≤ 62) :
    (m.setLevel l).levelExists k = true ↔ k = l ∨ m.levelExists k = true := by
  rw [levelExists_iff_testBit _ k hk, levelExists_iff_testBit _ k hk]
  unfold manifest.setLevel
  simp only
  rw [levelBit_eq l hl, Int.testBit_lor, testBit_two_pow_int]
  by_cases h : l = k
  · subst h; simp
  · have h2 : ¬ k = l := fun e => h e.symm
    simp [h, h2]

theorem levelExists_unsetLevel (m : manifest) (l k : Nat) (hl : l ≤ 62) (hk : k ≤ 62) :
    (m.unsetLevel l).levelExists k = true ↔ k ≠ l ∧ m.levelExists k = true := by
  rw [levelExists_iff_testBit _ k hk, levelExists_iff_testBit _ k hk]
  unfold manifest.unsetLevel
  simp only
  rw [levelBit_eq l hl, Int.testBit_land, Int.testBit_lnot, testBit_two_pow_int]
  by_cases h : l = k
  · subst h; simp
  · have h2 : ¬ k = l := fun e => h e.symm
    simp [h, h2]

/-- C12. For levels `l`, `k` in `0..MaxLevel`, whatever the mask: after `setLevel(l)`
level `k` exists iff `k = l` or it existed before; after `unsetLevel(l)` it exists iff
`k != l` and it existed before; neither operation touches the compacting flag. -/
theorem level_ops_per_bit (m : manifest) (l k : Nat) (hl : l ≤ MaxLevel) (hk : k ≤ MaxLevel) :
    ((m.setLevel l).levelExists k = true ↔ k = l ∨ m.levelExists k = true)
      ∧ ((m.unsetLevel l).levelExists k = true ↔ k ≠ l ∧ m.levelExists k = true)
      ∧ (m.setLevel l).compacting = m.compacting
      ∧ (m.unsetLevel l).compacting = m.compacting := by
  have hl2 : l ≤ 62 := by unfold MaxLevel at hl; omega
  have hk2 : k ≤ 62 := by unfold MaxLevel at hk; omega
  exact ⟨levelExists_setLevel m l k hl2 hk2, levelExists_unsetLevel m l k hl2 hk2, rfl, rfl⟩

/-- C12 at mask 5 (levels 0 and 2), `l = 1`, `k = 2`. -/
theorem level_ops_per_bit_witness :
    ((((⟨5, false⟩ : manifest).setLevel 1).levelExists 2 = true
        ↔ 2 = 1 ∨ (⟨5, false⟩ : manifest).levelExists 2 = true)
      ∧ (((⟨5, false⟩ : manifest).unsetLevel 1).levelExists 2 = true
        ↔ 2 ≠ 1 ∧ (⟨5, false⟩ : manifest).levelExists 2 = true)
      ∧ ((⟨5, false⟩ : manifest).setLevel 1).compacting = false
      ∧ ((⟨5, false⟩ : manifest).unsetLevel 1).compacting = false) :=
  level_ops_per_bit ⟨5, false⟩ 1 2 (by decide) (by decide)

/-- C13 (counterexample). With the compacting flag set before, it is still set after
the manifest update of a compaction of level 0: `db.compact` never touches the flag. -/
theorem compaction_keeps_flag :
    ((⟨1, true⟩ : manifest).afterCompaction 0).compacting = true := rfl

/-- C13 (amended). After the manifest update that `db.compact` makes for a level
`L < MaxLevel`, level `L` does not exist, level `L + 1` exists, and the compacting flag
is what it was before. -/
theorem manifest_after_compaction (m : manifest) (L : Nat) (hL : L < MaxLevel) :
    (m.afterCompaction L).levelExists L = false
      ∧ (m.afterCompaction L).levelExists (L + 1) = true
      ∧ (m.afterCompaction L).compacting = m.compacting := by
  have h1 : L ≤ 62 := by unfold MaxLevel at hL; omega
  have h2 : L + 1 ≤ 62 := by unfold MaxLevel at hL; omega
  refine ⟨?_, ?_, rfl⟩
  · rw [Bool.eq_false_iff]
    intro h
    exact ((levelExists_unsetLevel _ L L h1 h1).1 h).1 rfl
  · unfold manifest.afterCompaction
    rw [levelExists_unsetLevel _ L (L + 1) h1 h2]
    exact ⟨by omega, (levelExists_setLevel m (L + 1) (L + 1) h2 h2).2 (Or.inl rfl)⟩

/-- C13 (amended) at mask 1 (level 0 live), flag off, `L = 0`. -/
theorem manifest_after_compaction_witness :
    ((⟨1, false⟩ : manifest).afterCompaction 0).levelExists 0 = false
      ∧ ((⟨1, false⟩ : manifest).afterCompaction 0).levelExists 1 = true
      ∧ ((⟨1, false⟩ : manifest).afterCompaction 0).compacting = false :=
  manifest_after_compaction ⟨1, false⟩ 0 (by decide)

/-! ## Loading a manifest -/

/-- What `manifest.ReadFrom` makes of a decoded value that is a multiple of 256 below
`2^40`: the mask is that value, the flag is left alone. -/
theorem load_of_multiple (N : Nat) (hN : N < 4294967296) (c : Bool) :
    wrapInt64 ((((256 * N : Nat) : Int) >>> (1 : Nat)) <<< (1 : Int)) = ((2 ^ 8 * N : Nat) : Int)
      ∧ (if Int.land ((256 * N : Nat) : Int) 1 = 1 then true else c) = c := by
  constructor
  · rw [Int.shiftRight_eq_div_pow, show (1 : Int) = ((1 : Nat) : Int) from rfl,
      Int.shiftLeft_eq_mul_pow]
    unfold wrapInt64
    push_cast
    omega
  · have h : Int.land ((256 * N : Nat) : Int) 1 = (((256 * N) &&& 1 : Nat) : Int) := rfl
    rw [h, Nat.and_one_is_mod]
    have : 256 * N % 2 = 0 := by omega
    rw [this]
    simp

/-- The manifest that `manifest.ReadFrom` leaves: a mask `256 * N` and the flag of the
receiver. -/
theorem loaded_manifest_parts (m : manifest) (r : Reader) :
    ∃ N : Nat, (manifest.ReadFrom m r).1.levels = ((2 ^ 8 * N : Nat) : Int)
      ∧ (manifest.ReadFrom m r).1.compacting = m.compacting := by
  unfold manifest.ReadFrom
  generalize Reader.Read IntLength r = p
  obtain ⟨b, r1⟩ := p
  dsimp only
  rw [bytesToint_eq]
  have h0 := (idx b 0).isLt
  have h1 := (idx b 1).isLt
  have h2 := (idx b 2).isLt
  have h3 := (idx b 3).isLt
  generalize hN : 256 * (256 * (256 * (idx b 0).val + (idx b 1).val) + (idx b 2).val)
      + (idx b 3).val = N
  have hlt : N < 4294967296 := by omega
  obtain ⟨e1, e2⟩ := load_of_multiple N hlt m.compacting
  exact ⟨N, e1, e2⟩

/-- C19. After `manifest.ReadFrom`, whatever bytes the stream holds: the mask is a
multiple of 256, no level `0..MaxLevel` exists, and the compacting flag is what the
receiver held before the load. -/
theorem loaded_manifest_has_no_level (m : manifest) (r : Reader) :
    (manifest.ReadFrom m r).1.levels % 256 = 0
      ∧ (∀ l, l ≤ MaxLevel → (manifest.ReadFrom m r).1.levelExists l = false)
      ∧ (manifest.ReadFrom m r).1.compacting = m.compacting := by
  obtain ⟨N, hl, hc⟩ := loaded_manifest_parts m r
  refine ⟨?_, fun l hl7 => ?_, hc⟩
  · rw [hl]
    push_cast
    omega
  · have hl2 : l ≤ 62 := by unfold MaxLevel at hl7; omega
    rw [Bool.eq_false_iff]
    intro h
    rw [levelExists_iff_testBit _ l hl2, hl] at h
    have h4 : Nat.testBit (2 ^ 8 * N) l = true := h
    rw [Nat.testBit_mul_pow_two] at h4
    unfold MaxLevel at hl7
    have : ¬ l ≥ 8 := by omega
    simp [this] at h4

/-! ## The compaction trigger -/

theorem needCompactation_size (f : File) (level : Nat) :
    (needCompactation f level).1 = decide ((3 : Int) > (10 : Int) ^ level * MBSize) := rfl

theorem needCompactation_false (f : File) (level : Nat) :
    (needCompactation f level).1 = false := by
  rw [needCompactation_size, decide_eq_false_iff_not]
  have h : (1 : Int) ≤ 10 ^ level := one_le_pow₀ (by norm_num)
  unfold MBSize
  intro h2
  nlinarith

/-- C14. `needCompactation` returns false for every file and every level
`0..MaxLevel`, a file larger than `10^L` megabytes included: `Seek(io.SeekStart, 0)` and
`Seek(io.SeekEnd, 0)` pass the constant as the offset, so the positions returned are 0
and 2 and the size computed is always 3. -/
theorem needCompactation_never (f : File) (level : Fin 8) :
    (needCompactation f level.val).1 = false
      ∧ (f.Seek SeekStart 0).1 = 0 ∧ ((f.Seek SeekStart 0).2.Seek SeekEnd 0).1 = 2 :=
  ⟨needCompactation_false f level.val, rfl, rfl⟩

/-- The loop of `db.compact` never enters its body: the manifest is left as it is. -/
theorem compactFrom_never (S : GoSort) (R : MapRange) (fuel level : Nat) (d : db) :
    (db.compactFrom S R fuel level d).1.manifest = d.manifest := by
  cases fuel with
  | zero => rfl
  | succ fuel =>
    unfold db.compactFrom
    split
    · split
      · rfl
      · rename_i f hf
        have hn := needCompactation_false f level
        simp only [hn]
        rfl
    · rfl

/-! ## Truncated input -/

theorem GoSort.sort_nil (S : GoSort) {α : Type} (less : α → α → Bool) : S.sort less [] = [] :=
  List.Perm.eq_nil (S.perm less [])

theorem MapRange.order_nil (R : MapRange) {α : Type} : R.order ([] : List α) = [] :=
  List.Perm.eq_nil (R.perm [])

theorem sortLogFileRecords_nil (S : GoSort) (R : MapRange) : sortLogFileRecords S R [] = [] := by
  unfold sortLogFileRecords
  simp only [groupByName, List.foldl_nil, GoMap.keys, List.map_nil, MapRange.order_nil,
    GoSort.sort_nil]

theorem readLogRecords_fresh (fuel : Nat) (src : List Byte) :
    readLogRecords fuel (bufio.NewReader src) [] = [] := by
  cases fuel with
  | zero => rfl
  | succ fuel => simp [readLogRecords, bufio.NewReader, BufReader.Buffered]

/-- C17. An empty batch is not rejected: `writeLogFileInLsmFormat` is entered and stops
in the index-out-of-range panic of `recrodsToaadd[0][0]` (line 469), having written
nothing. `db.writeToLSM` always hands it an empty batch, whatever the log file holds,
because `Buffered()` of a new `bufio.Reader` is 0 and its read loop never runs. -/
theorem empty_flush_panics (S : GoSort) (R : MapRange) (logFile : List Byte) (level n : Int) :
    sortLogFileRecords S R [] = []
      ∧ writeLogFileInLsmFormat (sortLogFileRecords S R []) n = ⟨[], false⟩
      ∧ readLogRecords (logFile.length + 1) (bufio.NewReader logFile) [] = []
      ∧ db.writeToLSM S R logFile level = ⟨[], false⟩ := by
  refine ⟨sortLogFileRecords_nil S R, ?_, readLogRecords_fresh _ _, ?_⟩
  · rw [sortLogFileRecords_nil]; rfl
  · unfold db.writeToLSM
    simp only [readLogRecords_fresh, sortLogFileRecords_nil]
    rfl

/-! ## The write counters -/

theorem count_snoc_logWrite_flush (t : List Event) (r : record) :
    (t ++ [Event.logWrite r]).count Event.logFlush = t.count Event.logFlush := by
  simp [List.count_append]

theorem count_snoc_logWrite_lsm (t : List Event) (r : record) :
    (t ++ [Event.logWrite r]).count (Event.writeToLSM 0) = t.count (Event.writeToLSM 0) := by
  simp [List.count_append]

theorem count_snoc_flush_flush (t : List Event) :
    (t ++ [Event.logFlush]).count Event.logFlush = t.count Event.logFlush + 1 := by
  simp [List.count_append]

theorem count_snoc_flush_lsm (t : List Event) :
    (t ++ [Event.logFlush]).count (Event.writeToLSM 0) = t.count (Event.writeToLSM 0) := by
  simp [List.count_append]

theorem count_snoc_lsm_flush (t : List Event) :
    (t ++ [Event.writeToLSM 0]).count Event.logFlush = t.count Event.logFlush := by
  simp [List.count_append]

theorem count_snoc_lsm_lsm (t : List Event) :
    (t ++ [Event.writeToLSM 0]).count (Event.writeToLSM 0) = t.count (Event.writeToLSM 0) + 1 := by
  simp [List.count_append]

/-- One call of `db.write` on a state that `n` calls have reached. -/
theorem db.write_step (d : db) (now : Int) (name value : List Byte) (n : Nat)
    (h1 : d.loggedBufferedRecords = ((n % 20 : Nat) : Int))
    (h2 : d.logFileRecords = ((20 * (n / 20) : Nat) : Int)) :
    (d.write now name value).loggedBufferedRecords = (((n + 1) % 20 : Nat) : Int)
      ∧ (d.write now name value).logFileRecords = ((20 * ((n + 1) / 20) : Nat) : Int)
      ∧ (d.write now name value).flushes = d.flushes + (if n % 20 = 19 then 1 else 0)
      ∧ (d.write now name value).lsmBuilds = d.lsmBuilds + (if n + 1 = 200 then 1 else 0) := by
  unfold db.write db.flushes db.lsmBuilds BufferedRecordsLimit LogFileRecordLimit
    BufferedRecordsLimit
  simp only [h1, h2]
  by_cases hc : n % 20 = 19
  · have e1 : (((n % 20 : Nat) : Int) + 1 = 20) := by omega
    rw [if_pos e1]
    by_cases hd : n + 1 = 200
    · have e2 : (((20 * (n / 20) : Nat) : Int) + 20 = 20 * 10) := by omega
      rw [if_pos e2]
      simp only [count_snoc_lsm_flush, count_snoc_lsm_lsm, count_snoc_flush_flush,
        count_snoc_flush_lsm, count_snoc_logWrite_flush, count_snoc_logWrite_lsm, hc, hd,
        if_true]
      refine ⟨by omega, by omega, trivial, trivial⟩
    · have e2 : ¬ (((20 * (n / 20) : Nat) : Int) + 20 = 20 * 10) := by omega
      rw [if_neg e2]
      simp only [count_snoc_flush_flush, count_snoc_flush_lsm, count_snoc_logWrite_flush,
        count_snoc_logWrite_lsm, hc, hd, if_true, if_false, Nat.add_zero]
      refine ⟨by omega, by omega, trivial, trivial⟩
  · have e1 : ¬ (((n % 20 : Nat) : Int) + 1 = 20) := by omega
    have hd : ¬ n + 1 = 200 := by omega
    rw [if_neg e1]
    simp only [count_snoc_logWrite_flush, count_snoc_logWrite_lsm, hc, hd, if_false,
      Nat.add_zero]
    refine ⟨by omega, by omega, trivial, trivial⟩

theorem db.writes_snoc (d : db) (calls : List WriteCall) (c : WriteCall) :
    d.writes (calls ++ [c]) = (d.writes calls).write c.1 c.2.1 c.2.2 := by
  simp [db.writes, List.foldl_append]

/-- The state after any sequence of calls of `db.write` from zeroed counters. -/
theorem db.writes_closed_form (d : db) (calls : List WriteCall)
    (h1 : d.loggedBufferedRecords = 0) (h2 : d.logFileRecords = 0) :
    (d.writes calls).loggedBufferedRecords = ((calls.length % 20 : Nat) : Int)
      ∧ (d.writes calls).logFileRecords = ((20 * (calls.length / 20) : Nat) : Int)
      ∧ (d.writes calls).flushes = d.flushes + calls.length / 20
      ∧ (d.writes calls).lsmBuilds = d.lsmBuilds + (if 200 ≤ calls.length then 1 else 0) := by
  induction calls using List.reverseRecOn with
  | nil => simp [db.writes, h1, h2]
  | append_singleton l c ih =>
    obtain ⟨i1, i2, i3, i4⟩ := ih
    obtain ⟨s1, s2, s3, s4⟩ := db.write_step (d.writes l) c.1 c.2.1 c.2.2 l.length i1 i2
    rw [db.writes_snoc, List.length_append, List.length_singleton]
    refine ⟨s1, s2, ?_, ?_⟩
    · rw [s3, i3]
      by_cases hc : l.length % 20 = 19
      · rw [if_pos hc]; omega
      · rw [if_neg hc]; omega
    · rw [s4, i4]
      by_cases hd : l.length + 1 = 200
      · rw [if_pos hd, if_neg (by omega), if_pos (by omega)]
      · rw [if_neg hd]
        by_cases he : 200 ≤ l.length
        · rw [if_pos he, if_pos (by omega)]
        · rw [if_neg he, if_neg (by omega)]

/-- C11. From zeroed counters, 20 calls of `db.write` make exactly one explicit flush of
the log buffer, made by the 20th call (none after 19), and no call of `writeToLSM`; 200
calls make exactly one call `writeToLSM(0)`, made by the 200th call (none after 199). -/
theorem flush_threshold (d : db) (c20 c200 : List WriteCall)
    (h1 : d.loggedBufferedRecords = 0) (h2 : d.logFileRecords = 0)
    (h20 : c20.length = 20) (h200 : c200.length = 200) :
    ((d.writes c20).flushes = d.flushes + 1
        ∧ (d.writes (c20.take 19)).flushes = d.flushes
        ∧ (d.writes c20).lsmBuilds = d.lsmBuilds)
      ∧ ((d.writes c200).lsmBuilds = d.lsmBuilds + 1
        ∧ (d.writes (c200.take 199)).lsmBuilds = d.lsmBuilds) := by
  have a := db.writes_closed_form d c20 h1 h2
  have b := db.writes_closed_form d (c20.take 19) h1 h2
  have c := db.writes_closed_form d c200 h1 h2
  have e := db.writes_closed_form d (c200.take 199) h1 h2
  have l19 : (c20.take 19).length = 19 := by rw [List.length_take]; omega
  have l199 : (c200.take 199).length = 199 := by rw [List.length_take]; omega
  rw [h20] at a
  rw [l19] at b
  rw [h200] at c
  rw [l199] at e
  refine ⟨⟨a.2.2.1, b.2.2.1, ?_⟩, ?_, ?_⟩
  · simpa using a.2.2.2
  · simpa using c.2.2.2
  · simpa using e.2.2.2

/-- C11 for a fresh engine and 20, respectively 200, equal calls. -/
theorem flush_threshold_witness :
    ((freshDb.writes (List.replicate 20 sampleCall)).flushes = freshDb.flushes + 1
        ∧ (freshDb.writes ((List.replicate 20 sampleCall).take 19)).flushes = freshDb.flushes
        ∧ (freshDb.writes (List.replicate 20 sampleCall)).lsmBuilds = freshDb.lsmBuilds)
      ∧ ((freshDb.writes (List.replicate 200 sampleCall)).lsmBuilds = freshDb.lsmBuilds + 1
        ∧ (freshDb.writes ((List.replicate 200 sampleCall).take 199)).lsmBuilds
            = freshDb.lsmBuilds) :=
  flush_threshold freshDb (List.replicate 20 sampleCall) (List.replicate 200 sampleCall)
    rfl rfl (List.length_replicate 20 sampleCall) (List.length_replicate 200 sampleCall)

/-- C20. From zeroed counters, after `n` calls of `db.write`: `loggedBufferedRecords` is
`n mod 20` (so within `0..19`), `logFileRecords` is `20 * floor(n / 20)` (never reset),
and `writeToLSM(0)` has been called once if `n >= 200` and not at all otherwise. -/
theorem write_counter_invariant (d : db) (calls : List WriteCall)
    (h1 : d.loggedBufferedRecords = 0) (h2 : d.logFileRecords = 0) :
    (d.writes calls).loggedBufferedRecords = ((calls.length % 20 : Nat) : Int)
      ∧ (0 ≤ (d.writes calls).loggedBufferedRecords ∧ (d.writes calls).loggedBufferedRecords ≤ 19)
      ∧ (d.writes calls).logFileRecords = ((20 * (calls.length / 20) : Nat) : Int)
      ∧ (d.writes calls).lsmBuilds = d.lsmBuilds + (if 200 ≤ calls.length then 1 else 0) := by
  obtain ⟨a, b, _, e⟩ := db.writes_closed_form d calls h1 h2
  refine ⟨a, ?_, b, e⟩
  rw [a]
  omega

/-- C20 for a fresh engine after 450 equal calls. -/
theorem write_counter_invariant_witness :
    (freshDb.writes (List.replicate 450 sampleCall)).loggedBufferedRecords
        = (((List.replicate 450 sampleCall).length % 20 : Nat) : Int)
      ∧ (0 ≤ (freshDb.writes (List.replicate 450 sampleCall)).loggedBufferedRecords
        ∧ (freshDb.writes (List.replicate 450 sampleCall)).loggedBufferedRecords ≤ 19)
      ∧ (freshDb.writes (List.replicate 450 sampleCall)).logFileRecords
        = ((20 * ((List.replicate 450 sampleCall).length / 20) : Nat) : Int)
      ∧ (freshDb.writes (List.replicate 450 sampleCall)).lsmBuilds
        = freshDb.lsmBuilds + (if 200 ≤ (List.replicate 450 sampleCall).length then 1 else 0) :=
  write_counter_invariant freshDb (List.replicate 450 sampleCall) rfl rfl

/-! ## Grouping keeps every record -/

theorem GoMap.set_append_perm {κ α : Type} [DecidableEq κ] (m : GoMap κ (List α)) (k : κ)
    (x : α) :
    ((GoMap.set m k ((GoMap.get m k).getD [] ++ [x])).map Prod.snd).flatten.Perm
      ((m.map Prod.snd).flatten ++ [x]) := by
  induction m with
  | nil => simp [GoMap.set, GoMap.get]
  | cons e m ih =>
    obtain ⟨k1, v1⟩ := e
    by_cases h : k1 = k
    · subst h
      simp only [GoMap.set, GoMap.get, if_true, Option.getD_some, List.map_cons,
        List.flatten_cons, List.append_assoc]
      exact List.Perm.append_left v1 List.perm_append_comm
    · simp only [GoMap.set, GoMap.get, h, if_false, List.map_cons, List.flatten_cons,
        List.append_assoc]
      exact List.Perm.append_left v1 ih

theorem groupByName_values_perm (rds : List record) :
    ((groupByName rds).map Prod.snd).flatten.Perm rds := by
  induction rds using List.reverseRecOn with
  | nil => simp [groupByName]
  | append_singleton l r ih =>
    rw [groupByName_append]
    exact (GoMap.set_append_perm _ _ _).trans (List.Perm.append_right [r] ih)

theorem GoMap.map_get_keys {κ ν : Type} [DecidableEq κ] (m : GoMap κ ν) (d : ν)
    (hm : (GoMap.keys m).Nodup) :
    (GoMap.keys m).map (fun k => (GoMap.get m k).getD d) = m.map Prod.snd := by
  induction m with
  | nil => rfl
  | cons e m ih =>
    obtain ⟨k1, v1⟩ := e
    have hnd : k1 ∉ GoMap.keys m ∧ (GoMap.keys m).Nodup := by
      simpa [GoMap.keys] using hm
    have ih2 := ih hnd.2
    simp only [GoMap.keys, List.map_cons, GoMap.get, if_true, Option.getD_some,
      List.cons.injEq, true_and] at ih2 ⊢
    rw [← ih2]
    apply List.map_congr_left
    intro k hk
    have hne : k1 ≠ k := by
      intro e
      subst e
      exact hnd.1 (by simpa [GoMap.keys] using hk)
    simp [hne]

theorem flatten_map_perm {α β : Type} (f g : α → List β) (l : List α)
    (h : ∀ a ∈ l, (f a).Perm (g a)) : ((l.map f).flatten).Perm ((l.map g).flatten) := by
  induction l with
  | nil => simp
  | cons a l ih =>
    simp only [List.map_cons, List.flatten_cons]
    exact List.Perm.append (h a (by simp)) (ih (fun x hx => h x (by simp [hx])))

/-- The groups of `sortLogFileRecords`, concatenated, are a rearrangement of the batch. -/
theorem sortLogFileRecords_flatten_perm (S : GoSort) (R : MapRange) (rds : List record) :
    (sortLogFileRecords S R rds).flatten.Perm rds := by
  unfold sortLogFileRecords
  simp only
  refine (S.perm _ _).flatten.trans ?_
  refine (flatten_map_perm _ (fun k => (GoMap.get (groupByName rds) k).getD []) _
    (fun k _ => S.perm _ _)).trans ?_
  refine ((R.perm _).map _).flatten.trans ?_
  rw [GoMap.map_get_keys _ _ (groupByName_nodup rds)]
  exact groupByName_values_perm rds

theorem sortLogFileRecords_sizes (S : GoSort) (R : MapRange) (rds : List record) :
    ((sortLogFileRecords S R rds).map List.length).sum = rds.length := by
  rw [← List.length_flatten]
  exact (sortLogFileRecords_flatten_perm S R rds).length_eq

theorem sortLogFileRecords_length (S : GoSort) (R : MapRange) (rds : List record) :
    (sortLogFileRecords S R rds).length = ((rds.map (fun r => r.name)).dedup).length := by
  rw [← List.length_map (sortLogFileRecords S R rds) firstName]
  refine List.Perm.length_eq ?_
  rw [List.perm_ext_iff_of_nodup (sortLogFileRecords_names_sorted S R rds).nodup
    (List.nodup_dedup _)]
  intro k
  rw [(sortLogFileRecords_names_perm S R rds).mem_iff, groupByName_mem_keys, List.mem_dedup,
    List.mem_map]

/-- C18. The groups that `sortLogFileRecords` returns, concatenated, are a permutation
of the batch; so for a non-empty batch `writeLogFileInLsmFormat` returns, and the header
it writes has the sum of the group sizes as total record count and the number of
distinct names as key count, and the counts section holds the size of every group, in
order, which add up to the total. -/
theorem grouping_is_permutation (S : GoSort) (R : MapRange) (rds : List record) :
    (sortLogFileRecords S R rds).flatten.Perm rds
      ∧ ((sortLogFileRecords S R rds).map List.length).sum = rds.length
      ∧ (sortLogFileRecords S R rds).length = ((rds.map (fun r => r.name)).dedup).length
      ∧ (rds ≠ [] → ∃ first last : record,
          ((sortLogFileRecords S R rds).head? >>= List.head?) = some first
          ∧ ((sortLogFileRecords S R rds).getLast? >>= List.getLast?) = some last
          ∧ writeLogFileInLsmFormat (sortLogFileRecords S R rds) rds.length
            = ⟨lsmMetaInfo.WriteTo ⟨first.ts, last.ts,
                  (((sortLogFileRecords S R rds).map List.length).sum : Nat),
                  (((rds.map (fun r => r.name)).dedup).length : Nat)⟩
                ++ keysSection (sortLogFileRecords S R rds)
                ++ ((sortLogFileRecords S R rds).map (fun g => intToBytes g.length)).flatten
                ++ timestampsSection (sortLogFileRecords S R rds)
                ++ valueLengthsSection (sortLogFileRecords S R rds)
                ++ valuesSection (sortLogFileRecords S R rds), true⟩) := by
  refine ⟨sortLogFileRecords_flatten_perm S R rds, sortLogFileRecords_sizes S R rds,
    sortLogFileRecords_length S R rds, fun hrds => ?_⟩
  have hne := sortLogFileRecords_ne_nil S R rds hrds
  have hg : ∀ g ∈ sortLogFileRecords S R rds, g ≠ [] :=
    fun g hgm => (sortLogFileRecords_group S R rds g hgm).1
  obtain ⟨first, last, hf, hl⟩ := first_last_exist _ hne hg
  refine ⟨first, last, hf, hl, ?_⟩
  rw [writeLogFileInLsmFormat_sections _ _ first last hf hl hg, sortLogFileRecords_sizes,
    sortLogFileRecords_length]
  rfl

/-! ## The merged header -/

theorem oldKeyMap_zero (oldkeyb : List Byte) : oldKeyMap oldkeyb 0 = [] := rfl

theorem newKeyMap_zero (newkeyb : List Byte) : newKeyMap [] newkeyb 0 = [] := rfl

theorem fillKeys_nil (R : MapRange) : fillKeys R [] = some [] := by
  unfold fillKeys
  rw [show GoMap.keys ([] : GoMap (List Byte) (Int × Int × Int × Int)) = [] from rfl,
    MapRange.order_nil]

theorem mergeWrite_nil (S : GoSort) (old new : File) (oldHeader newHeader : lsmMetaInfo)
    (bIsOld : Bool) (keycount : Nat) :
    mergeWrite S old new oldHeader newHeader bIsOld keycount []
      = ⟨lsmMetaInfo.WriteTo ⟨oldHeader.start, newHeader.end,
          newHeader.totalRecords + oldHeader.totalRecords, keycount⟩, true⟩ := by
  unfold mergeWrite
  simp only [GoSort.sort_nil, List.foldl_nil]

/-- Without keys on either side `mergeFrom` writes the header alone. -/
theorem mergeFrom_no_keys (S : GoSort) (R : MapRange) (old new : File)
    (oldHeader newHeader : lsmMetaInfo) (bIsOld : Bool) (h1 : oldHeader.keycount = 0)
    (h2 : newHeader.keycount = 0) :
    mergeFrom S R old new oldHeader newHeader bIsOld
      = ⟨lsmMetaInfo.WriteTo ⟨oldHeader.start, newHeader.end,
          newHeader.totalRecords + oldHeader.totalRecords, 0⟩, true⟩ := by
  unfold mergeFrom
  simp only [h1, h2, oldKeyMap_zero, newKeyMap_zero, fillKeys_nil, mergeWrite_nil]
  rfl

/-- The header that `mergeLSMFiles` writes when neither input has keys: `end_ts` comes
from the input it calls `new`, which is the one with the smaller decoded `end`, and
`start_ts` from the other. -/
theorem mergeLSMFiles_no_keys (S : GoSort) (R : MapRange) (a b : File)
    (ha : (lsmMetaInfo.ReadFrom a.data).1.keycount = 0)
    (hb : (lsmMetaInfo.ReadFrom b.data).1.keycount = 0) :
    ((lsmMetaInfo.ReadFrom a.data).1.end < (lsmMetaInfo.ReadFrom b.data).1.end →
        mergeLSMFiles S R a b
          = ⟨lsmMetaInfo.WriteTo ⟨(lsmMetaInfo.ReadFrom b.data).1.start,
              (lsmMetaInfo.ReadFrom a.data).1.end,
              (lsmMetaInfo.ReadFrom a.data).1.totalRecords
                + (lsmMetaInfo.ReadFrom b.data).1.totalRecords, 0⟩, true⟩)
      ∧ (¬ (lsmMetaInfo.ReadFrom a.data).1.end < (lsmMetaInfo.ReadFrom b.data).1.end →
        mergeLSMFiles S R a b
          = ⟨lsmMetaInfo.WriteTo ⟨(lsmMetaInfo.ReadFrom a.data).1.start,
              (lsmMetaInfo.ReadFrom b.data).1.end,
              (lsmMetaInfo.ReadFrom b.data).1.totalRecords
                + (lsmMetaInfo.ReadFrom a.data).1.totalRecords, 0⟩, true⟩) := by
  constructor
  · intro h
    unfold mergeLSMFiles
    simp only [File.rest_Seek_start]
    rw [if_pos h]
    exact mergeFrom_no_keys S R _ _ _ _ _ hb ha
  · intro h
    unfold mergeLSMFiles
    simp only [File.rest_Seek_start]
    rw [if_neg h]
    exact mergeFrom_no_keys S R _ _ _ _ _ ha hb

theorem headerOnly_decoded :
    (lsmMetaInfo.ReadFrom headerOnlyA).1 = ⟨256, 768, 0, 0⟩
      ∧ (lsmMetaInfo.ReadFrom headerOnlyB).1 = ⟨512, 1024, 0, 0⟩ := by decide

/-- C15. The header of the merge is not the one claimed. For the segments of the merge
example no header is written at all (the panic of line 363 comes first). For two
key-less inputs `a` (start 256, end 768) and `b` (start 512, end 1024), in either
argument order, the header written has `start_ts` 512 and `end_ts` 768: the input with
the smaller `end` is taken as `new`, so `end_ts` is the smaller of the two ends and
`start_ts` is the start of the other input. -/
theorem merged_header_diverges (S : GoSort) (R : MapRange) :
    (mergeLSMFiles S R ⟨oldSegment, 0⟩ ⟨newSegment, 0⟩).out = []
      ∧ (lsmMetaInfo.ReadFrom headerOnlyA).1 = ⟨256, 768, 0, 0⟩
      ∧ (lsmMetaInfo.ReadFrom headerOnlyB).1 = ⟨512, 1024, 0, 0⟩
      ∧ mergeLSMFiles S R ⟨headerOnlyA, 0⟩ ⟨headerOnlyB, 0⟩
          = ⟨lsmMetaInfo.WriteTo ⟨512, 768, 0, 0⟩, true⟩
      ∧ mergeLSMFiles S R ⟨headerOnlyB, 0⟩ ⟨headerOnlyA, 0⟩
          = ⟨lsmMetaInfo.WriteTo ⟨512, 768, 0, 0⟩, true⟩ := by
  obtain ⟨hA, hB⟩ := headerOnly_decoded
  have kA : (lsmMetaInfo.ReadFrom headerOnlyA).1.keycount = 0 := by rw [hA]
  have kB : (lsmMetaInfo.ReadFrom headerOnlyB).1.keycount = 0 := by rw [hB]
  have p := (merge_built_segment_panics S R
    [[⟨1, key16 65, [1]⟩, ⟨2, key16 65, [2]⟩], [⟨5, key16 66, [3]⟩]] 3 ⟨newSegment, 0⟩
    (by decide) (by decide) (by decide)).1
  have ab := (mergeLSMFiles_no_keys S R ⟨headerOnlyA, 0⟩ ⟨headerOnlyB, 0⟩ kA kB).1
  have ba := (mergeLSMFiles_no_keys S R ⟨headerOnlyB, 0⟩ ⟨headerOnlyA, 0⟩ kB kA).2
  simp only [hA, hB] at ab ba
  refine ⟨?_, hA, hB, ab (by decide), ba (by decide)⟩
  show (mergeLSMFiles S R ⟨(writeLogFileInLsmFormat
    [[⟨1, key16 65, [1]⟩, ⟨2, key16 65, [2]⟩], [⟨5, key16 66, [3]⟩]] 3).out, 0⟩
    ⟨newSegment, 0⟩).out = []
  rw [p]

end Swan
